import Mathlib

/-!
# Verification of the timequeue scheduling engine

This development shallowly embeds the core of the timequeue library: the
indexed binary min-heap of scheduled messages (message.go: `Message`,
`messageHeap`, the `container/heap` sift algorithms it instantiates) and the
scheduler (`TimeQueue`: push/pushAll/remove/drain/start/stop, the single
reusable wake timer, the buffered output channel), together with a small
transition-system model of the pause-handshake concurrency protocol.

Messages are identified by natural-number ids; a fixed map `msgs : Nat → Message`
gives each id its immutable release time and priority (Go `time.Time` is
modelled as `Int`, `Priority` as `Int`).  Mutable per-message heap bookkeeping
(the `*messageHeap` back-reference and `index` fields) lives in a separate
store, and heaps are lists of ids, so that pointer-identity checks of the Go
code become id comparisons.  Fallible code (out-of-range slice indexing, a
blocking channel receive that can never be served) returns `Option.none`.
-/

set_option autoImplicit false

set_option maxRecDepth 100000

/-- Message models the Go `Message` value data: its release instant `At`
(Go `time.Time`, modelled as `Int`) and its `Priority` (Go `Priority`, an
integer; smaller releases first among equal `At`).  The payload `Data` is
opaque to the engine and is omitted.  The mutable heap-bookkeeping fields of
the Go struct (`*messageHeap` and `index`) are modelled separately in `Book`. -/
structure Message where
  At : Int
  Priority : Int
deriving DecidableEq, Repr

/-- Modelled from the spec: the priority-aware `Message.less`.  The source
file holding the `Priority`-bearing `Message` is not under src (part_008's
`less` predates the `Priority` field; only the tests of the priority-aware
version, message_test.go's `TestMessage_less`, and its callers in part_006's
`TimeQueue.Push` are present).  Per the spec, the ordering relation is
"earlier `releaseAt`, or equal `releaseAt` and smaller `priority`, wins",
which also matches every case of `TestMessage_less`. -/
def Message.less (m other : Message) : Bool :=
  if m.At = other.At then decide (m.Priority < other.Priority)
  else decide (m.At < other.At)

/-- indexNotInHeap is the sentinel `Message.index` value (Go: `-1`) meaning
the message is not stored in any heap. -/
def indexNotInHeap : Int := -1

/-- Book is the mutable heap bookkeeping carried by each Go `Message`: the
back-reference to the containing heap (`messageHeap`, `none` when detached,
modelled as a heap id instead of a pointer) and the array index `index`. -/
structure Book where
  messageHeap : Option Nat
  index : Int
deriving DecidableEq, Repr

/-- detachedBook is the bookkeeping of a message outside every heap, as set
by `NewMessage` and by the detaching operations (`withoutHeap`, heap `Pop`). -/
def detachedBook : Book := { messageHeap := none, index := indexNotInHeap }

/-- World is the mutable state of the heap layer: the bookkeeping store for
every message id and the backing list of every heap (Go: the `messageHeap`
slices, one per heap identity). -/
structure World where
  book : Nat → Book
  heaps : Nat → List Nat

/-- initWorld has every message detached and every heap empty. -/
def initWorld : World :=
  { book := fun _ => detachedBook, heaps := fun _ => [] }

section HeapOps

variable (msgs : Nat → Message)

/-- lessAt embeds `messageHeap.Less(i, j)` = `mh[i].less(mh[j])`: it reads the
ids at positions `i` and `j` of heap `h` and compares their messages.  An
out-of-range index is a Go runtime panic, modelled as `none`. -/
def lessAt (h i j : Nat) (w : World) : Option Bool :=
  match (w.heaps h).get? i, (w.heaps h).get? j with
  | some a, some b => some ((msgs a).less (msgs b))
  | _, _ => none

/-- swapOp embeds `messageHeap.Swap(i, j)`: it exchanges the ids at positions
`i` and `j` of heap `h` and then writes the new positions into the two
messages' `index` bookkeeping fields (`mh[i].index = i; mh[j].index = j`).
An out-of-range index is a Go runtime panic, modelled as `none`. -/
def swapOp (h i j : Nat) (w : World) : Option World :=
  match (w.heaps h).get? i, (w.heaps h).get? j with
  | some a, some b =>
    some { book := Function.update (Function.update w.book b
                     { messageHeap := some h, index := (i : Int) }) a
                     { messageHeap := some h, index := (j : Int) },
           heaps := Function.update w.heaps h (((w.heaps h).set i b).set j a) }
  | _, _ => none

/-- heapUpFuel embeds the `up` sift of Go's `container/heap`:
starting from index `j` it repeatedly compares with the parent `(j-1)/2`
and swaps while strictly less, stopping at the root or at a parent that is
not greater.  The `fuel` argument only bounds the number of loop iterations
so the definition is structurally recursive; the wrapper `heapUp` supplies
`j + 1`, which is always sufficient because the index strictly decreases. -/
def heapUpFuel : Nat → Nat → Nat → World → Option World
  | 0, _, _, _ => none
  | fuel + 1, h, j, w =>
    let i := (j - 1) / 2
    if i = j then some w
    else
      match lessAt msgs h j i w with
      | none => none
      | some false => some w
      | some true =>
        match swapOp h i j w with
        | none => none
        | some w' => heapUpFuel fuel h i w'

/-- heapUp runs the `up` sift from index `j` with sufficient fuel. -/
def heapUp (h j : Nat) (w : World) : Option World :=
  heapUpFuel msgs (j + 1) h j w

/-- childOf embeds the child-selection of Go's `container/heap` `down` loop:
for a node `i` with left child `j1 = 2*i+1 < n`, it returns the right child
`j1+1` when that is inside the region and strictly less than the left child,
and the left child otherwise. -/
def childOf (h n i : Nat) (w : World) : Option Nat :=
  let j1 := 2 * i + 1
  if j1 + 1 < n then
    match lessAt msgs h (j1 + 1) j1 w with
    | none => none
    | some b => some (if b then j1 + 1 else j1)
  else some j1

/-- heapDownFuel embeds the `down` sift of Go's `container/heap` restricted to
the region `[0, n)`: starting from index `i` it repeatedly selects the smaller
child and swaps while that child is strictly less, returning the final index
(Go's `down` returns `i > i0`, recovered by the callers from this index).
The `fuel` argument only bounds the number of loop iterations so the
definition is structurally recursive; the wrapper `heapDown` supplies `n + 1`,
which is always sufficient because the index strictly increases below `n`. -/
def heapDownFuel : Nat → Nat → Nat → Nat → World → Option (World × Nat)
  | 0, _, _, _, _ => none
  | fuel + 1, h, n, i, w =>
    if n ≤ 2 * i + 1 then some (w, i)
    else
      match childOf msgs h n i w with
      | none => none
      | some j =>
        match lessAt msgs h j i w with
        | none => none
        | some false => some (w, i)
        | some true =>
          match swapOp h i j w with
          | none => none
          | some w' => heapDownFuel fuel h n j w'

/-- heapDown runs the `down` sift on region `[0, n)` from index `i` with
sufficient fuel, returning the final index alongside the new state. -/
def heapDown (h n i : Nat) (w : World) : Option (World × Nat) :=
  heapDownFuel msgs (n + 1) h n i w

/-- interfacePush embeds `messageHeap.Push` (the `heap.Interface` method):
`m.messageHeap, m.index = mh, n` followed by `*mh = append(*mh, m)`. -/
def interfacePush (h m : Nat) (w : World) : World :=
  let n := (w.heaps h).length
  { book := Function.update w.book m { messageHeap := some h, index := (n : Int) },
    heaps := Function.update w.heaps h ((w.heaps h) ++ [m]) }

/-- pushMessage embeds `pushMessage(mh, m)` = `heap.Push(mh, m)`: the
`heap.Interface` `Push` (append with bookkeeping) followed by the `up` sift
from the last index. -/
def pushMessage (h m : Nat) (w : World) : Option World :=
  let w1 := interfacePush h m w
  heapUp msgs h ((w1.heaps h).length - 1) w1

/-- interfacePop embeds `messageHeap.Pop` (the `heap.Interface` method): it
reads the last element, detaches it (`m.messageHeap, m.index = nil,
indexNotInHeap`) and truncates the slice (`*mh = old[0 : n-1]`).  On an empty
heap the Go code indexes `old[n-1]` with `n = 0` and panics; the failed
lookup is modelled as `none`. -/
def interfacePop (h : Nat) (w : World) : Option (Nat × World) :=
  let old := w.heaps h
  match old.get? (old.length - 1) with
  | none => none
  | some m =>
    some (m, { book := Function.update w.book m detachedBook,
               heaps := Function.update w.heaps h (old.take (old.length - 1)) })

/-- popMessage embeds `popMessage(mh)` = `heap.Pop(mh)`: swap the root with
the last element, sift `down` on the region excluding the last slot, then
remove the last element via the `heap.Interface` `Pop`.  On an empty heap
`heap.Pop` computes `n = -1` and `Swap(0, -1)` panics (index out of range);
here the failed lookup inside `swapOp` returns `none`.  The `none` result
models that Go runtime panic: this `popMessage` has no branch that returns a
nil message for an empty heap. -/
def popMessage (h : Nat) (w : World) : Option (Nat × World) := do
  let n := (w.heaps h).length - 1
  let w1 ← swapOp h 0 n w
  let (w2, _) ← heapDown msgs h n 0 w1
  interfacePop h w2

/-- peek embeds `messageHeap.peek`: the root message when the heap is
nonempty, and `nil` (here `none`, a graceful value rather than a panic)
when it is empty. -/
def peek (h : Nat) (w : World) : Option Nat :=
  if 0 < (w.heaps h).length then (w.heaps h).get? 0 else none

/-- heapRemove embeds `heap.Remove(mh, i)` of Go's `container/heap`: when `i`
is not the last index, swap with the last element and repair with `down`
(and with `up` when `down` did not move), then remove the last element via
the `heap.Interface` `Pop`. -/
def heapRemove (h i : Nat) (w : World) : Option (Nat × World) :=
  let n := (w.heaps h).length - 1
  if i = n then interfacePop h w
  else
    match swapOp h i n w with
    | none => none
    | some w1 =>
      match heapDown msgs h n i w1 with
      | none => none
      | some (w2, i') =>
        match (if i < i' then some w2 else heapUp msgs h i w2 : Option World) with
        | none => none
        | some w3 => interfacePop h w3

/-- mhRemove embeds `messageHeap.remove(m)`: if `m.messageHeap != mh`
(pointer identity, modelled as heap-id equality) return `false` with no
change; otherwise `heap.Remove(mh, m.index)` and return `true`. -/
def mhRemove (h m : Nat) (w : World) : Option (Bool × World) :=
  if (w.book m).messageHeap = some h then
    (heapRemove msgs h (w.book m).index.toNat w).map (fun p => (true, p.2))
  else some (false, w)

/-- mhDrain embeds `messageHeap.drain`: it returns the backing list in array
order with every returned message detached by `withoutHeap` (which clears
`messageHeap` and `index`), and truncates the heap to length zero. -/
def mhDrain (h : Nat) (w : World) : List Nat × World :=
  let old := w.heaps h
  (old, { book := fun id => if id ∈ old then detachedBook else w.book id,
          heaps := Function.update w.heaps h [] })

end HeapOps

/-- SameShape records what every in-heap permutation step preserves: the
other heaps, the length of heap `h`, and the set of ids stored in heap `h`. -/
def SameShape (h : Nat) (w w' : World) : Prop :=
  (∀ h', h' ≠ h → w'.heaps h' = w.heaps h') ∧
  (w'.heaps h).length = (w.heaps h).length ∧
  (∀ x, (x ∈ w'.heaps h) ↔ x ∈ w.heaps h)

section HeapOrder

variable (msgs : Nat → Message)

/-- IsHeapN states the binary min-heap order on the region `[0, n)` of the
list `l`: no element is `less` than its parent at `(j-1)/2`. -/
def IsHeapN (l : List Nat) (n : Nat) : Prop :=
  ∀ j a b, 1 ≤ j → j < n → l.get? j = some a → l.get? ((j - 1) / 2) = some b →
    (msgs a).less (msgs b) = false

/-- HeapExcept is the heap order on `[0, n)` with the single pair from `k`
up to its parent exempted. -/
def HeapExcept (l : List Nat) (n k : Nat) : Prop :=
  ∀ j a b, 1 ≤ j → j < n → j ≠ k → l.get? j = some a →
    l.get? ((j - 1) / 2) = some b → (msgs a).less (msgs b) = false

/-- ChildsOK states that every child of `k` inside `[0, n)` already dominates
the element sitting at `k`'s parent, so that moving that element down into
position `k` cannot break the order towards `k`'s children. -/
def ChildsOK (l : List Nat) (n k : Nat) : Prop :=
  ∀ j a b, j < n → (j - 1) / 2 = k → 1 ≤ k → l.get? j = some a →
    l.get? ((k - 1) / 2) = some b → (msgs a).less (msgs b) = false

/-- PairOK states that the single pair from `k` up to its parent satisfies
the heap order (trivially true at the root). -/
def PairOK (l : List Nat) (k : Nat) : Prop :=
  ∀ a b, l.get? k = some a → l.get? ((k - 1) / 2) = some b →
    (msgs a).less (msgs b) = false

end HeapOrder

/-- AlmostDown is the sift-down loop invariant at current index `i`: the heap
order holds on `[0, n)` except on the edges into `i` from its children and
out of `i` to its parent, and every child of `i` already dominates the
element at `i`'s parent. -/
def AlmostDown (msgs : Nat → Message) (l : List Nat) (n i : Nat) : Prop :=
  (∀ j a b, 1 ≤ j → j < n → j ≠ i → (j - 1) / 2 ≠ i → l.get? j = some a →
    l.get? ((j - 1) / 2) = some b → (msgs a).less (msgs b) = false)
  ∧ ChildsOK msgs l n i

/-- Reach describes every World reachable from the initial state through the
heap operations of message.go: `pushMessage` (of a message that is currently
detached, as a freshly created `NewMessage` is), `popMessage`,
`messageHeap.remove` and `messageHeap.drain`, on any heap, in any order.
Only completing operations (result `some`) produce new states. -/
inductive Reach (msgs : Nat → Message) : World → Prop
  | init : Reach msgs initWorld
  | push {w w' : World} {h m : Nat} : Reach msgs w → w.book m = detachedBook →
      pushMessage msgs h m w = some w' → Reach msgs w'
  | pop {w w' : World} {h m : Nat} : Reach msgs w →
      popMessage msgs h w = some (m, w') → Reach msgs w'
  | removeStep {w w' : World} {h m : Nat} {r : Bool} : Reach msgs w →
      mhRemove msgs h m w = some (r, w') → Reach msgs w'
  | drainStep {w : World} (h : Nat) : Reach msgs w → Reach msgs (mhDrain h w).2

/-- HeapsOrdered states that every heap of the world satisfies the binary
min-heap order on its whole backing list. -/
def HeapsOrdered (msgs : Nat → Message) (w : World) : Prop :=
  ∀ h, IsHeapN msgs (w.heaps h) (w.heaps h).length

/-- PopRemoveOnly relates a world to any world obtained from it by a sequence
of `popMessage` and `messageHeap.remove` operations only (no pushes). -/
inductive PopRemoveOnly (msgs : Nat → Message) : World → World → Prop
  | refl (w : World) : PopRemoveOnly msgs w w
  | pop {w w1 w2 : World} {h m : Nat} : popMessage msgs h w = some (m, w1) →
      PopRemoveOnly msgs w1 w2 → PopRemoveOnly msgs w w2
  | removeStep {w w1 w2 : World} {h m : Nat} {r : Bool} :
      mhRemove msgs h m w = some (r, w1) →
      PopRemoveOnly msgs w1 w2 → PopRemoveOnly msgs w w2

/-- HeapOp is a single heap operation of a concrete test trace. -/
inductive HeapOp
  | push (m : Nat)
  | pop
deriving DecidableEq, Repr

/-- runHeapOps executes a list of heap operations on heap `h`, collecting the
ids returned by the pops in order; it propagates a panic (`none`) of any
operation. -/
def runHeapOps (msgs : Nat → Message) (h : Nat) : List HeapOp → World → Option (World × List Nat)
  | [], w => some (w, [])
  | HeapOp.push m :: rest, w =>
    match pushMessage msgs h m w with
    | none => none
    | some w' => runHeapOps msgs h rest w'
  | HeapOp.pop :: rest, w =>
    match popMessage msgs h w with
    | none => none
    | some (m, w') =>
      match runHeapOps msgs h rest w' with
      | none => none
      | some (wf, ms) => some (wf, m :: ms)

/-- msgsW is a concrete message map for witnesses: id `i` releases at time `i`
with priority 0. -/
def msgsW : Nat → Message := fun i => { At := (i : Int), Priority := 0 }

/-- msgsC1 is the concrete message map of the C1 counterexample: id 0
releases at time 10, every other id at time 5, all priorities 0. -/
def msgsC1 : Nat → Message := fun i =>
  if i = 0 then { At := 10, Priority := 0 } else { At := 5, Priority := 0 }

/-- msgsP is a concrete message map with equal release times and priority
equal to the id, exercising the priority tie-break. -/
def msgsP : Nat → Message := fun i => { At := 0, Priority := (i : Int) }

/-- wWitness1 is the world after pushing id 0 onto heap 0 of the initial
world. -/
def wWitness1 : World := (pushMessage msgsW 0 0 initWorld).getD initWorld

/-- wWitness2 is the world after additionally pushing id 1. -/
def wWitness2 : World := (pushMessage msgsW 0 1 wWitness1).getD initWorld

/-- wWitness3 is the world after then popping once (removing id 0). -/
def wWitness3 : World := ((popMessage msgsW 0 wWitness2).getD (0, initWorld)).2

/-! ## The bookkeeping invariant of C4 -/

/-- BookInv is the index-bookkeeping invariant: every id stored in some heap
holds a back-reference to exactly that heap and the exact array index where
the heap stores it, and every id booked as detached is in no heap. -/
def BookInv (w : World) : Prop :=
  (∀ h i id, (w.heaps h).get? i = some id → w.book id = { messageHeap := some h, index := (i : Int) }) ∧
  (∀ id h, (w.book id).messageHeap = some h →
    ∃ i, (w.heaps h).get? i = some id ∧ (w.book id).index = (i : Int)) ∧
  (∀ id, (w.book id).messageHeap = none → (w.book id).index = indexNotInHeap)

/-! ## The scheduler (TimeQueue) model -/

/-- TimerState models the single reusable Go `time.Timer` owned by the
queue, as seen by the sequential protocol: `armed t` after a `Reset` whose
fire instant has not been consumed, `fired` once the armed timer has fired
into its channel buffer but the signal has not been received, and `idle`
when the timer is unarmed with an empty channel (the state `newExpiredTimer`
produces, and the state after a successful `Stop` or after draining). -/
inductive TimerState
  | armed (t : Int)
  | fired
  | idle
deriving DecidableEq, Repr

/-- stopTimer embeds `TimeQueue.stopTimer`: `if !tq.timer.Stop() { <-tq.timer.C }`.
Stopping an armed timer succeeds; a fired timer fails to stop but the
buffered signal is drained by the receive; an idle timer fails to stop AND
the receive blocks forever because no signal is pending and nothing will
arm the timer while the caller is blocked — modelled as `none`. -/
def stopTimer : TimerState → Option TimerState
  | TimerState.armed _ => some TimerState.idle
  | TimerState.fired => some TimerState.idle
  | TimerState.idle => none

/-- resetTimerTo embeds `TimeQueue.resetTimerTo`: `tq.timer.Reset(time.Until(t))`,
arming the timer for instant `t`. -/
def resetTimerTo (t : Int) (_ : TimerState) : TimerState :=
  TimerState.armed t

/-- TQ is the sequential state of one `TimeQueue`: the wake timer, the
buffered output channel `out` with its capacity, the stopped flag
(`stopChan == nil`), and the heap world.  The queue's own `messageHeap` is
heap 0 of the world. -/
structure TQ where
  timer : TimerState
  out : List Nat
  cap : Nat
  stopped : Bool
  world : World

/-- tqHeapId is the heap identity of the queue's own messageHeap. -/
def tqHeapId : Nat := 0

/-- initTQ embeds `NewCapacity(c)`: an expired-and-drained timer
(`newExpiredTimer`), an empty output channel of capacity `c`, an empty heap,
and the queue started (`NewCapacity` calls `Start`). -/
def initTQ (c : Nat) : TQ :=
  { timer := TimerState.idle, out := [], cap := c, stopped := false,
    world := initWorld }

/-- isHead embeds `Message.isHead`: `m.messageHeap != nil && m.index == 0`. -/
def isHead (m : Nat) (w : World) : Bool :=
  (w.book m).messageHeap.isSome && (w.book m).index == 0

/-- pushLoop embeds the loop body of `TimeQueue.PushAll`: push each message
and remember the last pushed message that was the head right after its own
push (`if m.isHead() { newHead = m }`). -/
def pushLoop (msgs : Nat → Message) : List Nat → World → Option Nat → Option (World × Option Nat)
  | [], w, nh => some (w, nh)
  | m :: rest, w, nh =>
    match pushMessage msgs tqHeapId m w with
    | none => none
    | some w' => pushLoop msgs rest w' (if isHead m w' then some m else nh)

/-- tqPushAll embeds `TimeQueue.PushAll` (body under the lock and the pause):
push all messages tracking `newHead`; if some pushed message became head,
then if the heap now holds exactly one message just arm the timer for it,
otherwise stop the timer first and then arm it (`stopTimer`; `resetTimerTo`).
A blocked `stopTimer` is `none`. -/
def tqPushAll (msgs : Nat → Message) (ms : List Nat) (s : TQ) : Option TQ :=
  match pushLoop msgs ms s.world none with
  | none => none
  | some (w, newHead) =>
    match newHead with
    | none => some { s with world := w }
    | some nh =>
      if (w.heaps tqHeapId).length = 1 then
        some { s with world := w, timer := resetTimerTo (msgs nh).At s.timer }
      else
        match stopTimer s.timer with
        | none => none
        | some t1 => some { s with world := w, timer := resetTimerTo (msgs nh).At t1 }

/-- maybeResetTimerToHead embeds `TimeQueue.maybeResetTimerToHead`: peek the
heap and arm the timer for the head's release instant when one exists. -/
def maybeResetTimerToHead (msgs : Nat → Message) (w : World) (t : TimerState) : TimerState :=
  match peek tqHeapId w with
  | some m => resetTimerTo (msgs m).At t
  | none => t

/-- tqRemove embeds `TimeQueue.remove` (body under the lock and the pause).
The argument models the Go `*Message` parameter: `none` is a nil pointer,
and the very first step `m.isHead()` dereferences it, a runtime panic
(`none` result).  For a non-nil message: record `isHead`, attempt
`messageHeap.remove`, and if the removal succeeded on the head, stop the
timer and re-arm it from the new head. -/
def tqRemove (msgs : Nat → Message) (m? : Option Nat) (s : TQ) : Option (Bool × TQ) :=
  match m? with
  | none => none
  | some m =>
    let ih := isHead m s.world
    match mhRemove msgs tqHeapId m s.world with
    | none => none
    | some (ok, w') =>
      if ok && ih then
        match stopTimer s.timer with
        | none => none
        | some t1 =>
          some (ok, { s with world := w', timer := maybeResetTimerToHead msgs w' t1 })
      else
        some (ok, { s with world := w' })

/-- tqDrain embeds `TimeQueue.drain` (body under the lock and the pause):
drain the heap, then non-blockingly drain the buffered output channel and
append those messages; if the heap was nonempty the deferred `stopTimer`
runs before returning.  A blocked `stopTimer` is `none`. -/
def tqDrain (msgs : Nat → Message) (s : TQ) : Option (List Nat × TQ) :=
  let wasNonempty := 0 < (s.world.heaps tqHeapId).length
  let p := mhDrain tqHeapId s.world
  let res := p.1 ++ s.out
  if wasNonempty then
    match stopTimer s.timer with
    | none => none
    | some t1 => some (res, { s with world := p.2, out := [], timer := t1 })
  else
    some (res, { s with world := p.2, out := [] })

/-- tqStart embeds `TimeQueue.start`: `false` and no change when already
running; otherwise create the stop channel, spawn the run loop, and report
`true`.  The code does not touch the timer. -/
def tqStart (s : TQ) : Bool × TQ :=
  if !s.stopped then (false, s) else (true, { s with stopped := false })

/-- tqStop embeds `TimeQueue.stop`: `false` and no change when already
stopped; otherwise perform the synchronous stop handshake with the run loop
and clear the stop channel, reporting `true`.  The code does not touch the
timer or the heap. -/
def tqStop (s : TQ) : Bool × TQ :=
  if s.stopped then (false, s) else (true, { s with stopped := true })

/-- releaseNextMessage embeds `TimeQueue.releaseNextMessage`, the run loop's
timer-fire handler: pop the head message, dispatch it on the output channel
(`tq.out <- *m`), and re-arm the timer from the new head if any.  Popping an
empty heap panics (`none`). -/
def releaseNextMessage (msgs : Nat → Message) (s : TQ) : Option TQ :=
  match popMessage msgs tqHeapId s.world with
  | none => none
  | some (m, w') =>
    let out' := s.out ++ [m]
    some { s with world := w', out := out', timer := maybeResetTimerToHead msgs w' s.timer }

/-- ReachTQ describes the states of one queue reachable from `initTQ c` by
completed scheduler operations and run-loop steps, indexed by the number of
pushed messages, of successful removals, and of messages consumed from the
output channel by downstream readers.  A `release` step requires the run
loop to hold a fired, unconsumed timer signal while running, and its send
on the output channel to have buffer room (a full buffer blocks the run
loop, so no state transition completes). -/
inductive ReachTQ (msgs : Nat → Message) : TQ → Nat → Nat → Nat → Prop
  | init (c : Nat) : ReachTQ msgs (initTQ c) 0 0 0
  | pushAll {s s' : TQ} {p r c : Nat} {ms : List Nat} : ReachTQ msgs s p r c →
      (∀ m ∈ ms, s.world.book m = detachedBook) → ms.Nodup →
      (∀ m ∈ ms, m ∉ s.out) →
      tqPushAll msgs ms s = some s' → ReachTQ msgs s' (p + ms.length) r c
  | removeStep {s s' : TQ} {p r c : Nat} {m : Nat} {ok : Bool} : ReachTQ msgs s p r c →
      tqRemove msgs (some m) s = some (ok, s') →
      ReachTQ msgs s' p (r + (if ok then 1 else 0)) c
  | startStep {s : TQ} {p r c : Nat} : ReachTQ msgs s p r c →
      ReachTQ msgs (tqStart s).2 p r c
  | stopStep {s : TQ} {p r c : Nat} : ReachTQ msgs s p r c →
      ReachTQ msgs (tqStop s).2 p r c
  | fire {s : TQ} {p r c : Nat} {t : Int} : ReachTQ msgs s p r c →
      s.timer = TimerState.armed t → ReachTQ msgs { s with timer := TimerState.fired } p r c
  | release {s s' : TQ} {p r c : Nat} : ReachTQ msgs s p r c →
      s.stopped = false → s.timer = TimerState.fired → s.out.length < s.cap →
      releaseNextMessage msgs { s with timer := TimerState.idle } = some s' →
      ReachTQ msgs s' p r c
  | consume {s : TQ} {p r c : Nat} {m : Nat} {rest : List Nat} : ReachTQ msgs s p r c →
      s.out = m :: rest → ReachTQ msgs { s with out := rest } p r (c + 1)

/-- TQInv is the inductive invariant of reachable queue states: the world's
heaps are ordered and correctly booked, the timer is idle exactly when the
queue's heap is empty, messages buffered in the output channel are detached,
and heap size plus buffer size plus removals plus consumptions accounts for
every push. -/
def TQInv (msgs : Nat → Message) (s : TQ) (p r c : Nat) : Prop :=
  HeapsOrdered msgs s.world ∧
  BookInv s.world ∧
  (s.timer = TimerState.idle ↔ s.world.heaps tqHeapId = []) ∧
  (∀ m ∈ s.out, s.world.book m = detachedBook) ∧
  (s.world.heaps tqHeapId).length + s.out.length + r + c = p

/-! ## The pause-handshake protocol model (C9)

A small transition system over the control locations of the run loop and of
two external callers, with the callers' mutex (`tq.lock`) as an owner field.
The rendezvous on the unbuffered `pauseChan` and on the per-pause
`resultChan` are the paired transitions below.  `RPC.releasing` is the run
loop executing `releaseNextMessage` (its only heap/timer access);
`CPC.mutating` is an external caller inside the critical section of
`PushAll`/`Remove`/`Drain` between the pause acknowledgment and the resume
signal (its only heap/timer access). -/

/-- RPC is the run loop's control location: at the select, releasing a
message after a timer fire, sending the pause acknowledgment, or blocked
waiting for the resume signal. -/
inductive RPC
  | select
  | releasing
  | acking
  | waitResume
deriving DecidableEq, Fintype

/-- CPC is an external caller's control location: idle, holding the lock and
sending the pause request, waiting for the acknowledgment, or mutating the
heap/timer inside the paused window. -/
inductive CPC
  | idle
  | pauseReq
  | waitAck
  | mutating
deriving DecidableEq, Fintype

/-- Actor names the two modelled external callers. -/
inductive Actor
  | callerA
  | callerB
deriving DecidableEq, Fintype

/-- PSt is a state of the pause-protocol model: the run loop's and both
callers' control locations and the current owner of the external mutex. -/
structure PSt where
  r : RPC
  ca : CPC
  cb : CPC
  owner : Option Actor
deriving DecidableEq, Fintype

/-- pInit is the protocol's initial state: run loop at its select, both
callers idle, mutex free. -/
def pInit : PSt :=
  { r := RPC.select, ca := CPC.idle, cb := CPC.idle, owner := none }

/-- pstep is the transition relation of the pause-protocol model: the run
loop wakes on a timer fire and releases (only from its select), callers
acquire the mutex, rendezvous on `pauseChan`, receive the acknowledgment on
`resultChan`, mutate, and send the resume signal releasing the mutex. -/
def pstep (s s' : PSt) : Prop :=
  (s.r = RPC.select ∧ s' = { s with r := RPC.releasing }) ∨
  (s.r = RPC.releasing ∧ s' = { s with r := RPC.select }) ∨
  (s.ca = CPC.idle ∧ s.owner = none ∧
    s' = { s with ca := CPC.pauseReq, owner := some Actor.callerA }) ∨
  (s.cb = CPC.idle ∧ s.owner = none ∧
    s' = { s with cb := CPC.pauseReq, owner := some Actor.callerB }) ∨
  (s.ca = CPC.pauseReq ∧ s.r = RPC.select ∧
    s' = { s with ca := CPC.waitAck, r := RPC.acking }) ∨
  (s.cb = CPC.pauseReq ∧ s.r = RPC.select ∧
    s' = { s with cb := CPC.waitAck, r := RPC.acking }) ∨
  (s.ca = CPC.waitAck ∧ s.r = RPC.acking ∧
    s' = { s with ca := CPC.mutating, r := RPC.waitResume }) ∨
  (s.cb = CPC.waitAck ∧ s.r = RPC.acking ∧
    s' = { s with cb := CPC.mutating, r := RPC.waitResume }) ∨
  (s.ca = CPC.mutating ∧ s.r = RPC.waitResume ∧
    s' = { s with ca := CPC.idle, r := RPC.select, owner := none }) ∨
  (s.cb = CPC.mutating ∧ s.r = RPC.waitResume ∧
    s' = { s with cb := CPC.idle, r := RPC.select, owner := none })

/-- Reach9 is reachability in the pause-protocol model. -/
inductive Reach9 : PSt → Prop
  | init : Reach9 pInit
  | step {s s' : PSt} : Reach9 s → pstep s s' → Reach9 s'

/-- pInv is the inductive invariant of the protocol: a non-idle caller owns
the mutex, a mutating caller implies the run loop is blocked awaiting the
resume signal, and an acknowledgment in flight has a matching waiting
caller. -/
def pInv (s : PSt) : Prop :=
  (s.ca ≠ CPC.idle → s.owner = some Actor.callerA) ∧
  (s.cb ≠ CPC.idle → s.owner = some Actor.callerB) ∧
  (s.ca = CPC.mutating → s.r = RPC.waitResume) ∧
  (s.cb = CPC.mutating → s.r = RPC.waitResume) ∧
  (s.r = RPC.acking → s.ca = CPC.waitAck ∨ s.cb = CPC.waitAck)

/-- pMutEx is the single-writer property: never do the run loop and a
mutating caller access the heap/timer at the same instant, and never do two
callers mutate at the same instant. -/
def pMutEx (s : PSt) : Prop :=
  ¬(s.r = RPC.releasing ∧ (s.ca = CPC.mutating ∨ s.cb = CPC.mutating)) ∧
  ¬(s.ca = CPC.mutating ∧ s.cb = CPC.mutating)

instance (s s' : PSt) : Decidable (pstep s s') := by
  unfold pstep
  infer_instance

instance (s : PSt) : Decidable (pInv s) := by
  unfold pInv
  infer_instance

instance (s : PSt) : Decidable (pMutEx s) := by
  unfold pMutEx
  infer_instance

/-! ## Preservation of the bookkeeping invariant -/

/-- sW1 is the queue state after pushing message 0 onto a fresh capacity-1
queue: one message in the heap and the timer armed for its release instant. -/
def sW1 : TQ := (tqPushAll msgsW [0] (initTQ 1)).getD (initTQ 1)

/-! ## Theorems -/

theorem Message.less_irrefl (a : Message) : a.less a = false := by
  simp [Message.less]

theorem Message.less_asymm {a b : Message} (h : a.less b = true) :
    b.less a = false := by
  simp only [Message.less] at *
  split at h <;> split <;> simp_all <;> omega

theorem Message.less_trans {a b c : Message} (h1 : a.less b = true)
    (h2 : b.less c = true) : a.less c = true := by
  simp only [Message.less] at *
  split at h1 <;> split at h2 <;> split <;> simp_all <;> omega

theorem Message.nless_trans {a b c : Message} (h1 : a.less b = false)
    (h2 : b.less c = false) : a.less c = false := by
  simp only [Message.less] at *
  split at h1 <;> split at h2 <;> split <;> simp_all <;> omega

theorem swapList_get? {l : List Nat} {i j a b : Nat} (ha : l.get? i = some a)
    (hb : l.get? j = some b) (k : Nat) :
    ((l.set i b).set j a).get? k =
      if k = j then some a else if k = i then some b else l.get? k := by
  have hi : i < l.length := ((List.get?_eq_some).1 ha).1
  have hj : j < l.length := ((List.get?_eq_some).1 hb).1
  simp only [List.get?_eq_getElem?] at ha hb ⊢
  rw [List.getElem?_set, List.getElem?_set]
  by_cases hkj : k = j
  · subst hkj
    simp [List.length_set, hj]
  · have hjk : j ≠ k := fun hh => hkj hh.symm
    by_cases hki : k = i
    · rw [if_neg hjk, if_pos hki.symm, if_pos hi, if_neg hkj, if_pos hki]
    · have hik : i ≠ k := fun hh => hki hh.symm
      rw [if_neg hjk, if_neg hik, if_neg hkj, if_neg hki]

theorem swapList_mem {l : List Nat} {i j a b : Nat} (ha : l.get? i = some a)
    (hb : l.get? j = some b) (x : Nat) :
    (x ∈ (l.set i b).set j a) ↔ x ∈ l := by
  constructor
  · intro hx
    rcases List.mem_iff_get?.1 hx with ⟨k, hk⟩
    rw [swapList_get? ha hb] at hk
    split at hk
    · cases hk; exact List.mem_iff_get?.2 ⟨i, ha⟩
    · split at hk
      · cases hk; exact List.mem_iff_get?.2 ⟨j, hb⟩
      · exact List.mem_iff_get?.2 ⟨k, hk⟩
  · intro hx
    rcases List.mem_iff_get?.1 hx with ⟨k, hk⟩
    by_cases hkj : k = j
    · rw [hkj, hb] at hk
      cases hk
      by_cases hij : i = j
      · have hab : a = b := by
          rw [hij, hb] at ha; cases ha; rfl
        refine List.mem_iff_get?.2 ⟨j, ?_⟩
        rw [swapList_get? ha hb, if_pos rfl, hab]
      · refine List.mem_iff_get?.2 ⟨i, ?_⟩
        rw [swapList_get? ha hb, if_neg hij, if_pos rfl]
    · by_cases hki : k = i
      · rw [hki, ha] at hk
        cases hk
        refine List.mem_iff_get?.2 ⟨j, ?_⟩
        rw [swapList_get? ha hb, if_pos rfl]
      · refine List.mem_iff_get?.2 ⟨k, ?_⟩
        rw [swapList_get? ha hb, if_neg hkj, if_neg hki]
        exact hk

theorem swapOp_some {h i j : Nat} {w w' : World} (heq : swapOp h i j w = some w') :
    ∃ a b, (w.heaps h).get? i = some a ∧ (w.heaps h).get? j = some b ∧
      w' = { book := Function.update (Function.update w.book b
                       { messageHeap := some h, index := (i : Int) }) a
                       { messageHeap := some h, index := (j : Int) },
             heaps := Function.update w.heaps h
                        (((w.heaps h).set i b).set j a) } := by
  unfold swapOp at heq
  split at heq
  · next a b ha hb =>
    exact ⟨a, b, ha, hb, by cases heq; rfl⟩
  · cases heq

theorem swapOp_heaps_ne {h i j : Nat} {w w' : World}
    (heq : swapOp h i j w = some w') {h' : Nat} (hne : h' ≠ h) :
    w'.heaps h' = w.heaps h' := by
  rcases swapOp_some heq with ⟨a, b, _, _, rfl⟩
  exact Function.update_noteq hne _ _

theorem swapOp_length {h i j : Nat} {w w' : World}
    (heq : swapOp h i j w = some w') :
    (w'.heaps h).length = (w.heaps h).length := by
  rcases swapOp_some heq with ⟨a, b, _, _, rfl⟩
  simp [Function.update_same]

theorem swapOp_mem {h i j : Nat} {w w' : World}
    (heq : swapOp h i j w = some w') (x : Nat) :
    (x ∈ w'.heaps h) ↔ x ∈ w.heaps h := by
  rcases swapOp_some heq with ⟨a, b, ha, hb, rfl⟩
  simp only [Function.update_same]
  exact swapList_mem ha hb x

theorem SameShape.rfl {h : Nat} {w : World} : SameShape h w w :=
  ⟨fun _ _ => Eq.refl _, Eq.refl _, fun _ => Iff.rfl⟩

theorem SameShape.trans {h : Nat} {w1 w2 w3 : World} (h12 : SameShape h w1 w2)
    (h23 : SameShape h w2 w3) : SameShape h w1 w3 :=
  ⟨fun h' hne => (h23.1 h' hne).trans (h12.1 h' hne),
   h23.2.1.trans h12.2.1,
   fun x => (h23.2.2 x).trans (h12.2.2 x)⟩

theorem swapOp_sameShape {h i j : Nat} {w w' : World}
    (heq : swapOp h i j w = some w') : SameShape h w w' :=
  ⟨fun h' hne => swapOp_heaps_ne heq hne, swapOp_length heq, swapOp_mem heq⟩

theorem swapOp_get? {h i j : Nat} {w w' : World}
    (heq : swapOp h i j w = some w') :
    ∃ a b, (w.heaps h).get? i = some a ∧ (w.heaps h).get? j = some b ∧
      ∀ k, (w'.heaps h).get? k =
        if k = j then some a else if k = i then some b else (w.heaps h).get? k := by
  rcases swapOp_some heq with ⟨a, b, ha, hb, rfl⟩
  exact ⟨a, b, ha, hb, fun k => by
    simp only [Function.update_same]; exact swapList_get? ha hb k⟩

section SiftLemmasThms

variable (msgs : Nat → Message)

theorem heapUpFuel_sameShape {h : Nat} {fuel : Nat} : ∀ {j : Nat} {w w' : World},
    heapUpFuel msgs fuel h j w = some w' → SameShape h w w' := by
  induction fuel with
  | zero => intro j w w' heq; cases heq
  | succ fuel ih =>
    intro j w w' heq
    rw [heapUpFuel] at heq
    split at heq
    · cases heq; exact SameShape.rfl
    · split at heq
      · cases heq
      · cases heq; exact SameShape.rfl
      · split at heq
        · cases heq
        · next w1 hsw =>
          exact (swapOp_sameShape hsw).trans (ih heq)

theorem heapUpFuel_untouched {h : Nat} {fuel : Nat} : ∀ {j : Nat} {w w' : World},
    heapUpFuel msgs fuel h j w = some w' → ∀ k, j < k →
      (w'.heaps h).get? k = (w.heaps h).get? k := by
  induction fuel with
  | zero => intro j w w' heq; cases heq
  | succ fuel ih =>
    intro j w w' heq k hk
    rw [heapUpFuel] at heq
    split at heq
    · cases heq; rfl
    · next hij =>
      split at heq
      · cases heq
      · cases heq; rfl
      · split at heq
        · cases heq
        · next w1 hsw =>
          have hlt : (j - 1) / 2 < j := by omega
          have h1 := ih heq k (lt_trans hlt hk)
          rw [h1]
          rcases swapOp_get? hsw with ⟨a, b', ha, hb', hget⟩
          rw [hget k, if_neg (by omega), if_neg (by omega)]

theorem childOf_bounds {h n i : Nat} {w : World} {j : Nat}
    (hn : 2 * i + 1 < n) (heq : childOf msgs h n i w = some j) :
    (2 * i + 1 ≤ j ∧ j ≤ 2 * i + 2) ∧ (i < j ∧ j < n) := by
  simp only [childOf] at heq
  split at heq
  · next hlt =>
    split at heq
    · cases heq
    · next b hb =>
      cases heq
      rcases b with _ | _ <;> simp <;> omega
  · cases heq; omega

theorem heapDownFuel_sameShape {h n : Nat} {fuel : Nat} : ∀ {i : Nat} {w w' : World} {i' : Nat},
    heapDownFuel msgs fuel h n i w = some (w', i') → SameShape h w w' := by
  induction fuel with
  | zero => intro i w w' i' heq; cases heq
  | succ fuel ih =>
    intro i w w' i' heq
    rw [heapDownFuel] at heq
    split at heq
    · cases heq; exact SameShape.rfl
    · split at heq
      · cases heq
      · next j hj =>
        split at heq
        · cases heq
        · cases heq; exact SameShape.rfl
        · split at heq
          · cases heq
          · next w1 hsw =>
            exact (swapOp_sameShape hsw).trans (ih heq)

theorem heapDownFuel_le {h n : Nat} {fuel : Nat} : ∀ {i : Nat} {w w' : World} {i' : Nat},
    heapDownFuel msgs fuel h n i w = some (w', i') → i ≤ i' := by
  induction fuel with
  | zero => intro i w w' i' heq; cases heq
  | succ fuel ih =>
    intro i w w' i' heq
    rw [heapDownFuel] at heq
    split at heq
    · cases heq; exact Nat.le_refl _
    · next hni =>
      split at heq
      · cases heq
      · next j hj =>
        split at heq
        · cases heq
        · cases heq; exact Nat.le_refl _
        · split at heq
          · cases heq
          · next w1 hsw =>
            have hb2 := childOf_bounds msgs (by omega) hj
            exact Nat.le_trans (Nat.le_of_lt hb2.2.1) (ih heq)

theorem heapDownFuel_untouched {h n : Nat} {fuel : Nat} : ∀ {i : Nat} {w w' : World} {i' : Nat},
    heapDownFuel msgs fuel h n i w = some (w', i') → ∀ k, n ≤ k →
      (w'.heaps h).get? k = (w.heaps h).get? k := by
  induction fuel with
  | zero => intro i w w' i' heq; cases heq
  | succ fuel ih =>
    intro i w w' i' heq k hk
    rw [heapDownFuel] at heq
    split at heq
    · cases heq; rfl
    · next hni =>
      split at heq
      · cases heq
      · next j hj =>
        split at heq
        · cases heq
        · cases heq; rfl
        · split at heq
          · cases heq
          · next w1 hsw =>
            have hb2 := childOf_bounds msgs (by omega) hj
            have hb3 := hb2.2
            rw [ih heq k hk]
            rcases swapOp_get? hsw with ⟨a, b', ha, hb', hget⟩
            rw [hget k, if_neg (by omega), if_neg (by omega)]

end SiftLemmasThms

section HeapOrderThms

variable (msgs : Nat → Message)

theorem pairOK_zero {l : List Nat} : PairOK msgs l 0 := by
  intro a b ha hb
  simp only [Nat.zero_sub, Nat.zero_div] at hb
  rw [ha] at hb
  cases hb
  exact Message.less_irrefl _

theorem heapExcept_pairOK_isHeap {l : List Nat} {n k : Nat}
    (hex : HeapExcept msgs l n k) (hp : PairOK msgs l k) : IsHeapN msgs l n := by
  intro j a b h1 h2 ha hb
  by_cases hjk : j = k
  · subst hjk; exact hp a b ha hb
  · exact hex j a b h1 h2 hjk ha hb

theorem isHeapN_rootMin {l : List Nat} (hh : IsHeapN msgs l l.length) {r : Nat}
    (hr : l.get? 0 = some r) :
    ∀ j a, l.get? j = some a → (msgs a).less (msgs r) = false := by
  intro j
  induction j using Nat.strong_induction_on with
  | _ j ih =>
    intro a ha
    rcases Nat.eq_zero_or_pos j with hj | hj
    · subst hj
      rw [ha] at hr; cases hr
      exact Message.less_irrefl _
    · have hjlen : j < l.length := (List.get?_eq_some.1 ha).1
      have hplt : (j - 1) / 2 < j := by omega
      have hplen : (j - 1) / 2 < l.length := lt_trans hplt hjlen
      rcases List.get?_eq_some.2 ⟨hplen, rfl⟩ with hb
      have h1 : (msgs a).less (msgs (l.get ⟨(j - 1) / 2, hplen⟩)) = false :=
        hh j a _ hj hjlen ha hb
      have h2 := ih _ hplt _ hb
      exact Message.nless_trans h1 h2

end HeapOrderThms

theorem Message.nless_of_nless_of_less {a b c : Message} (h2 : a.less c = false)
    (h1 : b.less c = true) : a.less b = false := by
  simp only [Message.less] at *
  split at h1 <;> split at h2 <;> split <;> simp_all <;> omega

theorem lessAt_some {msgs : Nat → Message} {h i j : Nat} {w : World} {b : Bool}
    (heq : lessAt msgs h i j w = some b) :
    ∃ a c, (w.heaps h).get? i = some a ∧ (w.heaps h).get? j = some c ∧
      (msgs a).less (msgs c) = b := by
  unfold lessAt at heq
  split at heq
  · next a c ha hc => exact ⟨a, c, ha, hc, by cases heq; rfl⟩
  · cases heq

section SiftCorrectThms

variable (msgs : Nat → Message)

theorem heapUpFuel_isHeap {h n : Nat} {fuel : Nat} : ∀ {j : Nat} {w w' : World},
    j < n →
    HeapExcept msgs (w.heaps h) n j → ChildsOK msgs (w.heaps h) n j →
    heapUpFuel msgs fuel h j w = some w' →
    IsHeapN msgs (w'.heaps h) n := by
  induction fuel with
  | zero => intro j w w' _ _ _ heq; cases heq
  | succ fuel ih =>
    intro j w w' hjn hex hch heq
    rw [heapUpFuel] at heq
    split at heq
    · next hij =>
      cases heq
      have hj0 : j = 0 := by omega
      subst hj0
      intro j' a b h1 h2 ha hb
      exact hex j' a b h1 h2 (by omega) ha hb
    · next hij =>
      split at heq
      · cases heq
      · next hb =>
        cases heq
        rcases lessAt_some hb with ⟨c0, d0, hcj, hdi, hflt⟩
        intro j' a b h1 h2 ha hbp
        by_cases hjj' : j' = j
        · subst hjj'
          rw [hcj] at ha; cases ha
          rw [hdi] at hbp; cases hbp
          exact hflt
        · exact hex j' a b h1 h2 hjj' ha hbp
      · next hlessAt =>
        split at heq
        · cases heq
        · next w1 hsw =>
          have hj1 : 1 ≤ j := by omega
          rcases swapOp_get? hsw with ⟨a0, b0, hai, hbj, hget⟩
          rcases lessAt_some hlessAt with ⟨c0, d0, hcj, hdi, hlt⟩
          rw [hbj] at hcj; cases hcj
          rw [hai] at hdi; cases hdi
          have hin : (j - 1) / 2 < n := by omega
          refine ih hin ?_ ?_ heq
          · -- HeapExcept on the swapped list at the parent index
            intro j' a b h1 h2 hji' ha hbp
            rw [hget j'] at ha
            rw [hget ((j' - 1) / 2)] at hbp
            by_cases hj'j : j' = j
            · rw [if_pos hj'j] at ha
              cases ha
              rw [if_neg (show (j' - 1) / 2 ≠ j by omega),
                  if_pos (show (j' - 1) / 2 = (j - 1) / 2 by omega)] at hbp
              cases hbp
              exact Message.less_asymm hlt
            · rw [if_neg hj'j, if_neg hji'] at ha
              by_cases hpj : (j' - 1) / 2 = j
              · rw [if_pos hpj] at hbp
                cases hbp
                exact hch j' a a0 h2 hpj hj1 ha hai
              · rw [if_neg hpj] at hbp
                by_cases hpi : (j' - 1) / 2 = (j - 1) / 2
                · rw [if_pos hpi] at hbp
                  cases hbp
                  have hxa : (msgs a).less (msgs a0) = false :=
                    hex j' a a0 h1 h2 hj'j ha (by rw [hpi]; exact hai)
                  exact Message.nless_of_nless_of_less hxa hlt
                · rw [if_neg hpi] at hbp
                  exact hex j' a b h1 h2 hj'j ha hbp
          · -- ChildsOK on the swapped list at the parent index
            intro j' a b hj'n hpar hi1 ha hbp
            have hj'i : j' ≠ (j - 1) / 2 := by omega
            have hj'1 : 1 ≤ j' := by omega
            have hpi : ((j - 1) / 2 - 1) / 2 ≠ j := by omega
            have hpi2 : ((j - 1) / 2 - 1) / 2 ≠ (j - 1) / 2 := by omega
            rw [hget j'] at ha
            rw [hget (((j - 1) / 2 - 1) / 2)] at hbp
            rw [if_neg hpi, if_neg hpi2] at hbp
            by_cases hj'j : j' = j
            · rw [if_pos hj'j] at ha
              cases ha
              exact hex ((j - 1) / 2) a0 b hi1 hin hij hai hbp
            · rw [if_neg hj'j, if_neg hj'i] at ha
              have h1 : (msgs a).less (msgs a0) = false :=
                hex j' a a0 hj'1 hj'n hj'j ha (by rw [hpar]; exact hai)
              have h2 : (msgs a0).less (msgs b) = false :=
                hex ((j - 1) / 2) a0 b hi1 hin hij hai hbp
              exact Message.nless_trans h1 h2

end SiftCorrectThms

section SiftDownCorrectThms

variable (msgs : Nat → Message)

theorem childOf_min {h n i : Nat} {w : World} {j : Nat}
    (hn : 2 * i + 1 < n) (heq : childOf msgs h n i w = some j) :
    (j - 1) / 2 = i ∧
    ∀ s a c, 1 ≤ s → (s - 1) / 2 = i → s < n → s ≠ j →
      (w.heaps h).get? s = some a → (w.heaps h).get? j = some c →
      (msgs a).less (msgs c) = false := by
  have hb := childOf_bounds msgs hn heq
  have hj : (j - 1) / 2 = i := by omega
  refine ⟨hj, ?_⟩
  intro s a c hs1 hs hsn hsj ha hc
  simp only [childOf] at heq
  split at heq
  · next hlt =>
    split at heq
    · cases heq
    · next b hless =>
      rcases lessAt_some hless with ⟨p, q, hp, hq, hpq⟩
      rcases b with _ | _
      · replace heq : 2 * i + 1 = j := by simpa using heq
        have hs2 : s = 2 * i + 1 + 1 := by omega
        rw [hs2, hp] at ha; cases ha
        rw [← heq, hq] at hc; cases hc
        exact hpq
      · replace heq : 2 * i + 1 + 1 = j := by simpa using heq
        have hs2 : s = 2 * i + 1 := by omega
        rw [hs2, hq] at ha; cases ha
        rw [← heq, hp] at hc; cases hc
        exact Message.less_asymm hpq
  · next hlt =>
    cases heq
    exact absurd hsn (by omega)

theorem heapDownFuel_almost {h n : Nat} {fuel : Nat} :
    ∀ {i : Nat} {w w' : World} {i' : Nat},
    AlmostDown msgs (w.heaps h) n i →
    heapDownFuel msgs fuel h n i w = some (w', i') →
    HeapExcept msgs (w'.heaps h) n i' ∧ ChildsOK msgs (w'.heaps h) n i' ∧
    ((i < i' → PairOK msgs (w'.heaps h) i') ∧ (i' = i → w' = w)) := by
  induction fuel with
  | zero => intro i w w' i' _ heq; cases heq
  | succ fuel ih =>
    intro i w w' i' had heq
    rw [heapDownFuel] at heq
    split at heq
    · next hni =>
      cases heq
      refine ⟨?_, had.2, fun hlt => absurd hlt (by omega), fun _ => rfl⟩
      intro j a b h1 h2 hji ha hb
      have hpar : (j - 1) / 2 ≠ i := by omega
      exact had.1 j a b h1 h2 hji hpar ha hb
    · next hni =>
      split at heq
      · cases heq
      · next j hcj =>
        have hnlt : 2 * i + 1 < n := by omega
        have hbnd := childOf_bounds msgs hnlt hcj
        rcases childOf_min msgs hnlt hcj with ⟨hjpar, hmin⟩
        split at heq
        · cases heq
        · -- selected child is not less: the sift terminates at i
          next hless =>
          cases heq
          rcases lessAt_some hless with ⟨cj, ci, hgj, hgi, hflt⟩
          refine ⟨?_, had.2, fun hlt => absurd hlt (by omega), fun _ => rfl⟩
          intro j₀ a b h1 h2 hj₀ ha hb
          by_cases hpar : (j₀ - 1) / 2 = i
          · by_cases hj₀j : j₀ = j
            · rw [hj₀j, hgj] at ha; cases ha
              rw [hpar, hgi] at hb; cases hb
              exact hflt
            · rw [hpar, hgi] at hb; cases hb
              have hsj : (msgs a).less (msgs cj) = false :=
                hmin j₀ a cj h1 hpar h2 hj₀j ha hgj
              exact Message.nless_trans hsj hflt
          · exact had.1 j₀ a b h1 h2 hj₀ hpar ha hb
        · -- selected child is less: swap it up and continue at j
          next hless =>
          split at heq
          · cases heq
          · next w1 hsw =>
            rcases swapOp_get? hsw with ⟨a0, b0, hai, hbj, hget⟩
            rcases lessAt_some hless with ⟨cj, ci, hgj, hgi, hflt⟩
            rw [hbj] at hgj; cases hgj
            rw [hai] at hgi; cases hgi
            have hle := heapDownFuel_le msgs heq
            have hstep : AlmostDown msgs (w1.heaps h) n j := by
              constructor
              · intro j₀ a b h1 h2 hj₀j hpar ha hb
                rw [hget j₀, if_neg hj₀j] at ha
                rw [hget ((j₀ - 1) / 2), if_neg hpar] at hb
                by_cases hj₀i : j₀ = i
                · rw [if_pos hj₀i] at ha
                  cases ha
                  rw [hj₀i, if_neg (show (i - 1) / 2 ≠ i by omega)] at hb
                  exact had.2 j b0 b hbnd.2.2 hjpar (by omega) hbj hb
                · rw [if_neg hj₀i] at ha
                  by_cases hpi : (j₀ - 1) / 2 = i
                  · rw [if_pos hpi] at hb
                    cases hb
                    exact hmin j₀ a b0 h1 hpi h2 hj₀j ha hbj
                  · rw [if_neg hpi] at hb
                    exact had.1 j₀ a b h1 h2 hj₀i hpi ha hb
              · intro j₀ a b hj₀n hpar h1j ha hb
                have hj₀j : j₀ ≠ j := by omega
                have hj₀i : j₀ ≠ i := by omega
                rw [hget j₀, if_neg hj₀j, if_neg hj₀i] at ha
                rw [hget ((j - 1) / 2), hjpar] at hb
                rw [if_neg (show i ≠ j by omega), if_pos rfl] at hb
                cases hb
                exact had.1 j₀ a b0 (by omega) hj₀n hj₀i
                  (by rw [hpar]; omega) ha (by rw [hpar]; exact hbj)
            rcases ih hstep heq with ⟨hex', hch', hpair'⟩
            refine ⟨hex', hch', fun _ => ?_, fun hii => absurd hii (by omega)⟩
            rcases Nat.lt_or_ge j i' with hji' | hji'
            · exact hpair'.1 hji'
            · have hij' : i' = j := by omega
              have hw1 : w' = w1 := hpair'.2 hij'
              rw [hw1, hij']
              intro a b ha hb
              rw [hget j, if_pos rfl] at ha
              cases ha
              rw [hget ((j - 1) / 2), hjpar] at hb
              rw [if_neg (show i ≠ j by omega), if_pos rfl] at hb
              cases hb
              exact Message.less_asymm hflt

end SiftDownCorrectThms

section OpSpecsThms

variable (msgs : Nat → Message)

theorem isHeapN_take {l : List Nat} {k : Nat}
    (hh : IsHeapN msgs l l.length) : IsHeapN msgs (l.take k) (l.take k).length := by
  intro j a b h1 h2 ha hb
  have hjk : j < k := lt_of_lt_of_le h2 (by rw [List.length_take]; omega)
  have hpk : (j - 1) / 2 < k := lt_of_le_of_lt (by omega) hjk
  rw [List.get?_take hjk] at ha
  rw [List.get?_take hpk] at hb
  exact hh j a b h1 ((List.get?_eq_some).1 ha).1 ha hb

theorem interfacePop_spec {h : Nat} {w w' : World} {m : Nat}
    (heq : interfacePop h w = some (m, w')) :
    (w.heaps h).get? ((w.heaps h).length - 1) = some m ∧
    w'.heaps h = (w.heaps h).take ((w.heaps h).length - 1) ∧
    (∀ h', h' ≠ h → w'.heaps h' = w.heaps h') ∧
    w'.book = Function.update w.book m detachedBook := by
  simp only [interfacePop] at heq
  split at heq
  · cases heq
  · next m0 hm0 =>
    cases heq
    exact ⟨hm0, Function.update_same _ _ _, fun h' hne => Function.update_noteq hne _ _, rfl⟩

theorem interfacePush_heaps {h m : Nat} {w : World} :
    (interfacePush h m w).heaps h = w.heaps h ++ [m] := by
  simp [interfacePush, Function.update_same]

theorem interfacePush_heaps_ne {h m : Nat} {w : World} {h' : Nat} (hne : h' ≠ h) :
    (interfacePush h m w).heaps h' = w.heaps h' := by
  simp only [interfacePush]
  exact Function.update_noteq hne _ _

theorem pushMessage_spec {h m : Nat} {w w' : World}
    (hh : IsHeapN msgs (w.heaps h) (w.heaps h).length)
    (heq : pushMessage msgs h m w = some w') :
    IsHeapN msgs (w'.heaps h) (w'.heaps h).length ∧
    (w'.heaps h).length = (w.heaps h).length + 1 ∧
    (∀ h', h' ≠ h → w'.heaps h' = w.heaps h') ∧
    (∀ x, (x ∈ w'.heaps h) ↔ (x ∈ w.heaps h ∨ x = m)) := by
  have hl1 : (interfacePush h m w).heaps h = w.heaps h ++ [m] := interfacePush_heaps
  simp only [pushMessage, heapUp] at heq
  set n := (w.heaps h).length with hn
  have hidx : ((interfacePush h m w).heaps h).length - 1 = n := by
    rw [hl1]
    simp
  rw [hidx] at heq
  have hshape := heapUpFuel_sameShape msgs heq
  have hlen1 : ((interfacePush h m w).heaps h).length = n + 1 := by
    rw [hl1]
    simp
  have hlen' : (w'.heaps h).length = n + 1 := by rw [hshape.2.1, hlen1]
  have hex : HeapExcept msgs ((interfacePush h m w).heaps h) (n + 1) n := by
    intro j a b h1 h2 hjn ha hb
    have hjlt : j < n := by omega
    have hplt : (j - 1) / 2 < n := by omega
    rw [hl1, List.get?_append hjlt] at ha
    rw [hl1, List.get?_append hplt] at hb
    exact hh j a b h1 hjlt ha hb
  have hch : ChildsOK msgs ((interfacePush h m w).heaps h) (n + 1) n := by
    intro j a b hj hpar h1 _ _
    exact absurd hj (by omega)
  have hmain : IsHeapN msgs (w'.heaps h) (n + 1) :=
    heapUpFuel_isHeap msgs (Nat.lt_succ_self n) hex hch heq
  refine ⟨by rw [hlen']; exact hmain, hlen', fun h' hne => ?_, fun x => ?_⟩
  · rw [hshape.1 h' hne, interfacePush_heaps_ne hne]
  · rw [hshape.2.2 x, hl1, List.mem_append, List.mem_singleton]

theorem popMessage_spec {h : Nat} {w w' : World} {m : Nat}
    (hh : IsHeapN msgs (w.heaps h) (w.heaps h).length)
    (heq : popMessage msgs h w = some (m, w')) :
    (w.heaps h).get? 0 = some m ∧
    IsHeapN msgs (w'.heaps h) (w'.heaps h).length ∧
    (w'.heaps h).length + 1 = (w.heaps h).length ∧
    (∀ h', h' ≠ h → w'.heaps h' = w.heaps h') ∧
    (∀ x, x ∈ w'.heaps h → x ∈ w.heaps h) ∧
    w'.book m = detachedBook ∧
    (m ∈ w.heaps h) := by
  simp only [popMessage, Bind.bind, Option.bind_eq_some] at heq
  rcases heq with ⟨w1, hsw, ⟨w2, i2⟩, hdn, hpop⟩
  dsimp only at hsw hdn hpop
  set n := (w.heaps h).length - 1 with hn
  rcases swapOp_get? hsw with ⟨a0, b0, ha0, hb0, hget1⟩
  have hlen0 : 0 < (w.heaps h).length := ((List.get?_eq_some).1 ha0).1
  have hlen1 : (w1.heaps h).length = (w.heaps h).length := swapOp_length hsw
  have hdshape := heapDownFuel_sameShape msgs hdn
  have hlen2 : (w2.heaps h).length = (w.heaps h).length := by
    rw [hdshape.2.1, hlen1]
  rcases interfacePop_spec (w := w2) hpop with ⟨hm, hl', hne', hbk'⟩
  -- the element removed is the old root
  have hunt := heapDownFuel_untouched msgs hdn
  have hm2 : (w2.heaps h).get? n = some a0 := by
    rw [hunt n (le_refl n), hget1 n, if_pos rfl]
  have hmval : m = a0 := by
    rw [hlen2, ← hn, hm2] at hm
    cases hm; rfl
  -- heap order of the region [0, n) is restored by the down sift
  have hdalmost : AlmostDown msgs (w1.heaps h) n 0 := by
    constructor
    · intro j a b h1 h2 hj0 hpar ha hb
      rw [hget1 j, if_neg (by omega), if_neg (by omega)] at ha
      rw [hget1 ((j - 1) / 2), if_neg (by omega), if_neg (by omega)] at hb
      exact hh j a b h1 (by omega) ha hb
    · intro j a b hj hpar h1 _ _
      exact absurd h1 (by omega)
  rcases heapDownFuel_almost msgs hdalmost hdn with ⟨hex2, _, hpair2, heqw2⟩
  have hheap2 : IsHeapN msgs (w2.heaps h) n := by
    refine heapExcept_pairOK_isHeap msgs hex2 ?_
    rcases Nat.eq_zero_or_pos i2 with hi2 | hi2
    · rw [hi2]; exact pairOK_zero msgs
    · exact hpair2 hi2
  have hheap' : IsHeapN msgs (w'.heaps h) (w'.heaps h).length := by
    rw [hl']
    have hnn : (w2.heaps h).length - 1 = n := by omega
    rw [hnn]
    intro j a b h1 h2 ha hb
    have hjk : j < n := lt_of_lt_of_le h2 (by rw [List.length_take]; omega)
    have hpk : (j - 1) / 2 < n := by omega
    rw [List.get?_take hjk] at ha
    rw [List.get?_take hpk] at hb
    exact hheap2 j a b h1 hjk ha hb
  have hlen' : (w'.heaps h).length + 1 = (w.heaps h).length := by
    rw [hl', List.length_take]
    omega
  refine ⟨by rw [← hmval] at ha0; exact ha0, hheap', hlen', ?_, ?_,
    by rw [hbk']; exact Function.update_same _ _ _, ?_⟩
  · intro h' hne
    rw [hne' h' hne, hdshape.1 h' hne, swapOp_heaps_ne hsw hne]
  · intro x hx
    rw [hl'] at hx
    have hx2 : x ∈ w2.heaps h := List.mem_of_mem_take hx
    rw [hdshape.2.2 x, swapOp_mem hsw x] at hx2
    exact hx2
  · rw [← swapOp_mem hsw m, ← hdshape.2.2 m]
    rw [hmval]
    exact List.mem_iff_get?.2 ⟨n, hm2⟩

end OpSpecsThms

section RemoveSpecsThms

variable (msgs : Nat → Message)

theorem isHeapN_take_region {l : List Nat} {n : Nat} (hlen : n + 1 = l.length)
    (hh : IsHeapN msgs l n) : IsHeapN msgs (l.take n) (l.take n).length := by
  intro j a b h1 h2 ha hb
  have hjk : j < n := lt_of_lt_of_le h2 (by rw [List.length_take]; omega)
  have hpk : (j - 1) / 2 < n := by omega
  rw [List.get?_take hjk] at ha
  rw [List.get?_take hpk] at hb
  exact hh j a b h1 hjk ha hb

theorem heapRemove_spec {h i : Nat} {w w' : World} {m : Nat}
    (hh : IsHeapN msgs (w.heaps h) (w.heaps h).length)
    (heq : heapRemove msgs h i w = some (m, w')) :
    IsHeapN msgs (w'.heaps h) (w'.heaps h).length ∧
    (w'.heaps h).length + 1 = (w.heaps h).length ∧
    (∀ h', h' ≠ h → w'.heaps h' = w.heaps h') ∧
    (∀ x, x ∈ w'.heaps h → x ∈ w.heaps h) ∧
    w'.book m = detachedBook := by
  simp only [heapRemove] at heq
  set n := (w.heaps h).length - 1 with hn
  split at heq
  · -- removing the last position: a bare interface Pop
    rcases interfacePop_spec (w := w) heq with ⟨hm, hl', hne', hbk'⟩
    have hlen0 : 0 < (w.heaps h).length := by
      rcases (List.get?_eq_some).1 hm with ⟨hlt, _⟩
      omega
    have hreg : ((w.heaps h).length - 1) + 1 = (w.heaps h).length := by omega
    have hh2 : IsHeapN msgs (w.heaps h) ((w.heaps h).length - 1) := by
      intro j a b h1 h2 ha hb
      exact hh j a b h1 (by omega) ha hb
    refine ⟨?_, ?_, hne', ?_, by rw [hbk']; exact Function.update_same _ _ _⟩
    · rw [hl']
      exact isHeapN_take_region msgs hreg hh2
    · rw [hl', List.length_take]
      omega
    · intro x hx
      rw [hl'] at hx
      exact List.mem_of_mem_take hx
  · next hin =>
    split at heq
    · cases heq
    next w1 hsw =>
    split at heq
    · cases heq
    next w2 i2 hdn =>
    split at heq
    · cases heq
    next w3 hw3 =>
    rename (interfacePop h w3 = some (m, w')) => hpop
    rcases swapOp_get? hsw with ⟨a0, b0, hai, hbn, hget1⟩
    have hilen : i < (w.heaps h).length := ((List.get?_eq_some).1 hai).1
    have hinn : i < n := by omega
    have hlen1 : (w1.heaps h).length = (w.heaps h).length := swapOp_length hsw
    have hdshape := heapDownFuel_sameShape msgs hdn
    have hdle := heapDownFuel_le msgs hdn
    have hlen2 : (w2.heaps h).length = (w.heaps h).length := by
      rw [hdshape.2.1, hlen1]
    have hdalmost : AlmostDown msgs (w1.heaps h) n i := by
      constructor
      · intro j a b h1 h2 hji hpar ha hb
        rw [hget1 j, if_neg (by omega), if_neg (by omega)] at ha
        rw [hget1 ((j - 1) / 2), if_neg (by omega), if_neg (by omega)] at hb
        exact hh j a b h1 (by omega) ha hb
      · intro j a b hj hpar h1 ha hb
        have hji : j ≠ i := by omega
        rw [hget1 j, if_neg (by omega), if_neg hji] at ha
        rw [hget1 ((i - 1) / 2), if_neg (by omega), if_neg (by omega)] at hb
        have hx1 : (msgs a).less (msgs a0) = false :=
          hh j a a0 (by omega) (by omega) ha (by rw [hpar]; exact hai)
        have hx2 : (msgs a0).less (msgs b) = false :=
          hh i a0 b h1 (by omega) hai hb
        exact Message.nless_trans hx1 hx2
    rcases heapDownFuel_almost msgs hdalmost hdn with ⟨hex2, hch2, hpair2, heqw2⟩
    -- the repaired state w3: either the down sift moved, or up repairs
    have hw3spec : IsHeapN msgs (w3.heaps h) n ∧ SameShape h w2 w3 := by
      split at hw3
      · next hlt =>
        cases hw3
        exact ⟨heapExcept_pairOK_isHeap msgs hex2 (hpair2 hlt), SameShape.rfl⟩
      · next hlt =>
        have hi2 : i2 = i := by omega
        have hw21 : w2 = w1 := heqw2 hi2
        have hup : heapUpFuel msgs (i + 1) h i w2 = some w3 := hw3
        refine ⟨?_, heapUpFuel_sameShape msgs hup⟩
        have hex2' : HeapExcept msgs (w2.heaps h) n i := by rw [hi2] at hex2; exact hex2
        have hch2' : ChildsOK msgs (w2.heaps h) n i := by rw [hi2] at hch2; exact hch2
        exact heapUpFuel_isHeap msgs hinn hex2' hch2' hup
    have hlen3 : (w3.heaps h).length = (w.heaps h).length := by
      rw [hw3spec.2.2.1, hlen2]
    rcases interfacePop_spec (w := w3) hpop with ⟨hm, hl', hne', hbk'⟩
    have hreg : n + 1 = (w3.heaps h).length := by omega
    refine ⟨?_, ?_, ?_, ?_, by rw [hbk']; exact Function.update_same _ _ _⟩
    · rw [hl', hlen3]
      have : (w.heaps h).length - 1 = n := by omega
      rw [this]
      exact isHeapN_take_region msgs hreg hw3spec.1
    · rw [hl', List.length_take]
      omega
    · intro h' hne
      rw [hne' h' hne, hw3spec.2.1 h' hne, hdshape.1 h' hne, swapOp_heaps_ne hsw hne]
    · intro x hx
      rw [hl'] at hx
      have hx3 : x ∈ w3.heaps h := List.mem_of_mem_take hx
      rw [hw3spec.2.2.2 x, hdshape.2.2 x, swapOp_mem hsw x] at hx3
      exact hx3

theorem mhRemove_false {h m : Nat} {w : World}
    (hne : (w.book m).messageHeap ≠ some h) :
    mhRemove msgs h m w = some (false, w) := by
  simp only [mhRemove, if_neg hne]

theorem mhRemove_spec {h m : Nat} {w w' : World} {r : Bool}
    (hh : IsHeapN msgs (w.heaps h) (w.heaps h).length)
    (heq : mhRemove msgs h m w = some (r, w')) :
    (r = false → w' = w) ∧
    (r = true →
      IsHeapN msgs (w'.heaps h) (w'.heaps h).length ∧
      (w'.heaps h).length + 1 = (w.heaps h).length ∧
      (∀ h', h' ≠ h → w'.heaps h' = w.heaps h') ∧
      (∀ x, x ∈ w'.heaps h → x ∈ w.heaps h)) := by
  simp only [mhRemove] at heq
  split at heq
  · rw [Option.map_eq_some'] at heq
    rcases heq with ⟨⟨m0, w0⟩, hrem, heq2⟩
    injection heq2 with hr hw
    subst hw
    constructor
    · intro hc
      rw [← hr] at hc
      cases hc
    · intro _
      rcases heapRemove_spec msgs hh hrem with ⟨h1, h2, h3, h4, _⟩
      exact ⟨h1, h2, h3, h4⟩
  · next hguard =>
    injection heq with hpair
    injection hpair with hr hw
    subst hw
    constructor
    · intro _
      rfl
    · intro hc
      rw [← hr] at hc
      cases hc

end RemoveSpecsThms

section DrainSpecThms

theorem mhDrain_spec {h : Nat} {w : World} :
    (mhDrain h w).1 = w.heaps h ∧
    (mhDrain h w).2.heaps h = [] ∧
    (∀ h', h' ≠ h → (mhDrain h w).2.heaps h' = w.heaps h') ∧
    (∀ id, id ∈ w.heaps h → (mhDrain h w).2.book id = detachedBook) ∧
    (∀ id, id ∉ w.heaps h → (mhDrain h w).2.book id = w.book id) := by
  refine ⟨rfl, ?_, fun h' hne => ?_, fun id hid => ?_, fun id hid => ?_⟩
  · simp [mhDrain, Function.update_same]
  · simp only [mhDrain]
    exact Function.update_noteq hne _ _
  · simp only [mhDrain]
    rw [if_pos hid]
  · simp only [mhDrain]
    rw [if_neg hid]

end DrainSpecThms

section ReachOrderThms

variable (msgs : Nat → Message)

theorem initWorld_heapsOrdered : HeapsOrdered msgs initWorld := by
  intro h j a b _ _ ha _
  simp [initWorld] at ha

theorem pushMessage_heapsOrdered {w w' : World} {h m : Nat}
    (ho : HeapsOrdered msgs w) (heq : pushMessage msgs h m w = some w') :
    HeapsOrdered msgs w' := by
  rcases pushMessage_spec msgs (ho h) heq with ⟨h1, _, h3, _⟩
  intro h'
  by_cases hne : h' = h
  · rw [hne]; exact h1
  · rw [h3 h' hne]; exact ho h'

theorem popMessage_heapsOrdered {w w' : World} {h m : Nat}
    (ho : HeapsOrdered msgs w) (heq : popMessage msgs h w = some (m, w')) :
    HeapsOrdered msgs w' := by
  rcases popMessage_spec msgs (ho h) heq with ⟨_, h2, _, h4, _⟩
  intro h'
  by_cases hne : h' = h
  · rw [hne]; exact h2
  · rw [h4 h' hne]; exact ho h'

theorem mhRemove_heapsOrdered {w w' : World} {h m : Nat} {r : Bool}
    (ho : HeapsOrdered msgs w) (heq : mhRemove msgs h m w = some (r, w')) :
    HeapsOrdered msgs w' := by
  rcases mhRemove_spec msgs (ho h) heq with ⟨hfalse, htrue⟩
  rcases r with _ | _
  · rw [hfalse rfl]; exact ho
  · rcases htrue rfl with ⟨h1, _, h3, _⟩
    intro h'
    by_cases hne : h' = h
    · rw [hne]; exact h1
    · rw [h3 h' hne]; exact ho h'

theorem mhDrain_heapsOrdered {w : World} (h : Nat)
    (ho : HeapsOrdered msgs w) : HeapsOrdered msgs (mhDrain h w).2 := by
  rcases mhDrain_spec (h := h) (w := w) with ⟨_, h2, h3, _⟩
  intro h'
  by_cases hne : h' = h
  · rw [hne, h2]
    intro j a b _ _ ha _
    simp at ha
  · rw [h3 h' hne]; exact ho h'

theorem reach_heapsOrdered {w : World} (hr : Reach msgs w) :
    HeapsOrdered msgs w := by
  induction hr with
  | init => exact initWorld_heapsOrdered msgs
  | push _ _ heq ih => exact pushMessage_heapsOrdered msgs ih heq
  | pop _ heq ih => exact popMessage_heapsOrdered msgs ih heq
  | removeStep _ heq ih => exact mhRemove_heapsOrdered msgs ih heq
  | drainStep h _ ih => exact mhDrain_heapsOrdered msgs h ih

/-- popMessage returns a minimal element: no message stored in the heap is
`less` than the popped one. -/
theorem popMessage_min {w w' : World} {h m : Nat}
    (ho : HeapsOrdered msgs w) (heq : popMessage msgs h w = some (m, w')) :
    ∀ x, x ∈ w.heaps h → (msgs x).less (msgs m) = false := by
  rcases popMessage_spec msgs (ho h) heq with ⟨hroot, _⟩
  intro x hx
  rcases List.mem_iff_get?.1 hx with ⟨j, hj⟩
  exact isHeapN_rootMin msgs (ho h) hroot j x hj

end ReachOrderThms

theorem popRemoveOnly_subset {msgs : Nat → Message} {w w' : World}
    (hpr : PopRemoveOnly msgs w w') :
    HeapsOrdered msgs w →
    HeapsOrdered msgs w' ∧ ∀ h x, x ∈ w'.heaps h → x ∈ w.heaps h := by
  induction hpr with
  | refl w => exact fun ho => ⟨ho, fun _ _ hx => hx⟩
  | @pop w w1 w2 h m hstep _ ih =>
    intro ho
    rcases popMessage_spec msgs (ho h) hstep with ⟨_, _, _, hne, hsub, _⟩
    have ho1 : HeapsOrdered msgs w1 := popMessage_heapsOrdered msgs ho hstep
    rcases ih ho1 with ⟨ho2, hsub2⟩
    refine ⟨ho2, fun h' x hx => ?_⟩
    have hx1 := hsub2 h' x hx
    by_cases hh : h' = h
    · rw [hh] at hx1 ⊢
      exact hsub x hx1
    · rw [hne h' hh] at hx1
      exact hx1
  | @removeStep w w1 w2 h m r hstep _ ih =>
    intro ho
    have ho1 : HeapsOrdered msgs w1 := mhRemove_heapsOrdered msgs ho hstep
    rcases ih ho1 with ⟨ho2, hsub2⟩
    rcases mhRemove_spec msgs (ho h) hstep with ⟨hfalse, htrue⟩
    refine ⟨ho2, fun h' x hx => ?_⟩
    have hx1 := hsub2 h' x hx
    rcases r with _ | _
    · rw [hfalse rfl] at hx1
      exact hx1
    · rcases htrue rfl with ⟨_, _, hne, hsub⟩
      by_cases hh : h' = h
      · rw [hh] at hx1 ⊢
        exact hsub x hx1
      · rw [hne h' hh] at hx1
        exact hx1

/-! ## A concrete trace runner for the heap operations -/

theorem Book.eq_mk_iff (bk : Book) (oh : Option Nat) (ix : Int) :
    bk = { messageHeap := oh, index := ix } ↔ bk.messageHeap = oh ∧ bk.index = ix := by
  cases bk
  simp [Book.mk.injEq]

section BookInvPresThms

variable (msgs : Nat → Message)

theorem swapOp_bookInv {h i j : Nat} {w w' : World}
    (hbi : BookInv w) (heq : swapOp h i j w = some w') : BookInv w' := by
  rcases swapOp_some heq with ⟨a, b, ha, hb, rfl⟩
  have hba : w.book a = { messageHeap := some h, index := (i : Int) } := hbi.1 h i a ha
  have hbb : w.book b = { messageHeap := some h, index := (j : Int) } := hbi.1 h j b hb
  have hab : a = b → i = j := by
    intro hab
    rw [hab, hbb, Book.eq_mk_iff] at hba
    simpa using hba.2.symm
  have hook : ∀ id h₀ i₀, (w.heaps h₀).get? i₀ = some id →
      (id = a → h₀ = h ∧ i₀ = i) ∧ (id = b → h₀ = h ∧ i₀ = j) := by
    intro id h₀ i₀ hid
    have h1 := hbi.1 h₀ i₀ id hid
    constructor
    · intro hc
      rw [hc, hba, Book.eq_mk_iff] at h1
      rcases h1 with ⟨hx, hy⟩
      have hx2 : (some h : Option Nat) = some h₀ := hx
      have hy2 : (i : Int) = (i₀ : Int) := hy
      injection hx2 with hx'
      exact ⟨hx'.symm, by omega⟩
    · intro hc
      rw [hc, hbb, Book.eq_mk_iff] at h1
      rcases h1 with ⟨hx, hy⟩
      have hx2 : (some h : Option Nat) = some h₀ := hx
      have hy2 : (j : Int) = (i₀ : Int) := hy
      injection hx2 with hx'
      exact ⟨hx'.symm, by omega⟩
  have hbook' : ∀ id, (Function.update (Function.update w.book b
      { messageHeap := some h, index := (i : Int) }) a
      { messageHeap := some h, index := (j : Int) }) id =
      if id = a then { messageHeap := some h, index := (j : Int) }
      else if id = b then { messageHeap := some h, index := (i : Int) }
      else w.book id := by
    intro id
    by_cases hia : id = a
    · rw [if_pos hia, hia, Function.update_same]
    · rw [if_neg hia, Function.update_noteq hia]
      by_cases hib : id = b
      · rw [if_pos hib, hib, Function.update_same]
      · rw [if_neg hib, Function.update_noteq hib]
  have hlist : ∀ k, ((Function.update w.heaps h (((w.heaps h).set i b).set j a)) h).get? k =
      if k = j then some a else if k = i then some b else (w.heaps h).get? k := by
    intro k
    rw [Function.update_same]
    exact swapList_get? ha hb k
  have hlistne : ∀ h', h' ≠ h →
      (Function.update w.heaps h (((w.heaps h).set i b).set j a)) h' = w.heaps h' :=
    fun h' hne => Function.update_noteq hne _ _
  refine ⟨?_, ?_, ?_⟩
  · -- forward direction: position determines the bookkeeping
    intro h' i' id' hid'
    dsimp only at hid' ⊢
    rw [hbook' id']
    by_cases hh : h' = h
    · subst hh
      rw [hlist i'] at hid'
      by_cases hij' : i' = j
      · rw [if_pos hij'] at hid'
        cases hid'
        rw [if_pos rfl, hij']
      · rw [if_neg hij'] at hid'
        by_cases hii' : i' = i
        · rw [if_pos hii'] at hid'
          cases hid'
          have hij : i ≠ j := fun hc => hij' (hii'.trans hc)
          have hba' : b ≠ a := fun hc => hij (hab hc.symm)
          rw [if_neg hba', if_pos rfl, hii']
        · rw [if_neg hii'] at hid'
          have hk := hook id' h' i' hid'
          have hid'a : id' ≠ a := fun hc => hii' (hk.1 hc).2
          have hid'b : id' ≠ b := fun hc => hij' (hk.2 hc).2
          rw [if_neg hid'a, if_neg hid'b]
          exact hbi.1 h' i' id' hid'
    · rw [hlistne h' hh] at hid'
      have hk := hook id' h' i' hid'
      have hid'a : id' ≠ a := fun hc => hh (hk.1 hc).1
      have hid'b : id' ≠ b := fun hc => hh (hk.2 hc).1
      rw [if_neg hid'a, if_neg hid'b]
      exact hbi.1 h' i' id' hid'
  · -- backward direction: the bookkeeping points at the id's position
    intro id h₀ hmem
    dsimp only at hmem ⊢
    rw [hbook' id] at hmem ⊢
    by_cases hia : id = a
    · rw [if_pos hia] at hmem ⊢
      injection hmem with hmem'
      refine ⟨j, ?_, rfl⟩
      rw [← hmem', hlist j, if_pos rfl, hia]
    · rw [if_neg hia] at hmem ⊢
      by_cases hib : id = b
      · rw [if_pos hib] at hmem ⊢
        injection hmem with hmem'
        have hij : i ≠ j := fun hc => hia (by
          rw [hc] at ha
          rw [ha] at hb
          injection hb with hb'
          rw [hib, hb'])
        refine ⟨i, ?_, rfl⟩
        rw [← hmem', hlist i, if_neg hij, if_pos rfl, hib]
      · rw [if_neg hib] at hmem ⊢
        rcases hbi.2.1 id h₀ hmem with ⟨i₀, hi₀, hidx⟩
        refine ⟨i₀, ?_, hidx⟩
        by_cases hh : h₀ = h
        · subst hh
          have hk := hook id h₀ i₀ hi₀
          have hne1 : i₀ ≠ j := by
            intro hc
            rw [hc] at hi₀
            rw [hi₀] at hb
            injection hb with hb'
            exact hib hb'
          have hne2 : i₀ ≠ i := by
            intro hc
            rw [hc] at hi₀
            rw [hi₀] at ha
            injection ha with ha'
            exact hia ha'
          rw [hlist i₀, if_neg hne1, if_neg hne2]
          exact hi₀
        · rw [hlistne h₀ hh]
          exact hi₀
  · -- a detached book has the sentinel index
    intro id hmem
    dsimp only at hmem ⊢
    rw [hbook' id] at hmem ⊢
    by_cases hia : id = a
    · rw [if_pos hia] at hmem
      cases hmem
    · rw [if_neg hia] at hmem ⊢
      by_cases hib : id = b
      · rw [if_pos hib] at hmem
        cases hmem
      · rw [if_neg hib] at hmem ⊢
        exact hbi.2.2 id hmem

end BookInvPresThms

section BookInvOpsThms

variable (msgs : Nat → Message)

theorem heapUpFuel_bookInv {h : Nat} {fuel : Nat} : ∀ {j : Nat} {w w' : World},
    BookInv w → heapUpFuel msgs fuel h j w = some w' → BookInv w' := by
  induction fuel with
  | zero => intro j w w' _ heq; cases heq
  | succ fuel ih =>
    intro j w w' hbi heq
    rw [heapUpFuel] at heq
    split at heq
    · cases heq; exact hbi
    · split at heq
      · cases heq
      · cases heq; exact hbi
      · split at heq
        · cases heq
        · next w1 hsw =>
          exact ih (swapOp_bookInv hbi hsw) heq

theorem heapDownFuel_bookInv {h n : Nat} {fuel : Nat} :
    ∀ {i : Nat} {w w' : World} {i' : Nat},
    BookInv w → heapDownFuel msgs fuel h n i w = some (w', i') → BookInv w' := by
  induction fuel with
  | zero => intro i w w' i' _ heq; cases heq
  | succ fuel ih =>
    intro i w w' i' hbi heq
    rw [heapDownFuel] at heq
    split at heq
    · cases heq; exact hbi
    · split at heq
      · cases heq
      · split at heq
        · cases heq
        · cases heq; exact hbi
        · split at heq
          · cases heq
          · next w1 hsw =>
            exact ih (swapOp_bookInv hbi hsw) heq

theorem not_mem_of_detached {w : World} (hbi : BookInv w) {m : Nat}
    (hdet : w.book m = detachedBook) :
    ∀ h₀ i₀, (w.heaps h₀).get? i₀ = some m → False := by
  intro h₀ i₀ hc
  have h1 := hbi.1 h₀ i₀ m hc
  rw [hdet] at h1
  have h2 : (none : Option Nat) = some h₀ := congrArg Book.messageHeap h1
  cases h2

theorem interfacePush_bookInv {h m : Nat} {w : World}
    (hbi : BookInv w) (hdet : w.book m = detachedBook) :
    BookInv (interfacePush h m w) := by
  have hnm := not_mem_of_detached hbi hdet
  set n := (w.heaps h).length with hn
  have hl : (interfacePush h m w).heaps h = w.heaps h ++ [m] := interfacePush_heaps
  have hlne : ∀ h', h' ≠ h → (interfacePush h m w).heaps h' = w.heaps h' :=
    fun h' hne => interfacePush_heaps_ne hne
  have hbk : ∀ id, (interfacePush h m w).book id =
      if id = m then { messageHeap := some h, index := (n : Int) } else w.book id := by
    intro id
    by_cases hid : id = m
    · rw [if_pos hid, hid]
      exact Function.update_same _ _ _
    · rw [if_neg hid]
      exact Function.update_noteq hid _ _
  refine ⟨?_, ?_, ?_⟩
  · intro h' i' id' hid'
    rw [hbk id']
    by_cases hh : h' = h
    · subst hh
      rw [hl] at hid'
      by_cases hin : i' < n
      · rw [List.get?_append hin] at hid'
        have hne : id' ≠ m := fun hc => hnm h' i' (hc ▸ hid')
        rw [if_neg hne]
        exact hbi.1 h' i' id' hid'
      · by_cases hieq : i' = n
        · rw [hieq, List.get?_concat_length] at hid'
          cases hid'
          rw [if_pos rfl, hieq]
        · have : (w.heaps h' ++ [m]).length ≤ i' := by
            rw [List.length_append, List.length_singleton]
            omega
          rw [List.get?_eq_none.2 this] at hid'
          cases hid'
    · rw [hlne h' hh] at hid'
      have hne : id' ≠ m := fun hc => hnm h' i' (hc ▸ hid')
      rw [if_neg hne]
      exact hbi.1 h' i' id' hid'
  · intro id h₀ hmem
    rw [hbk id] at hmem ⊢
    by_cases hid : id = m
    · rw [if_pos hid] at hmem ⊢
      injection hmem with hmem'
      refine ⟨n, ?_, rfl⟩
      rw [← hmem', hl, hid]
      exact List.get?_concat_length _ _
    · rw [if_neg hid] at hmem ⊢
      rcases hbi.2.1 id h₀ hmem with ⟨i₀, hi₀, hidx⟩
      refine ⟨i₀, ?_, hidx⟩
      by_cases hh : h₀ = h
      · subst hh
        rw [hl, List.get?_append ((List.get?_eq_some).1 hi₀).1]
        exact hi₀
      · rw [hlne h₀ hh]
        exact hi₀
  · intro id hmem
    rw [hbk id] at hmem ⊢
    by_cases hid : id = m
    · rw [if_pos hid] at hmem
      cases hmem
    · rw [if_neg hid] at hmem ⊢
      exact hbi.2.2 id hmem

theorem interfacePop_bookInv {h : Nat} {w w' : World} {m : Nat}
    (hbi : BookInv w) (heq : interfacePop h w = some (m, w')) : BookInv w' := by
  rcases interfacePop_spec heq with ⟨hm, hl', hne', hbk'⟩
  set n := (w.heaps h).length with hn
  have hbm : w.book m = { messageHeap := some h, index := ((n - 1 : Nat) : Int) } :=
    hbi.1 h (n - 1) m hm
  have huniq : ∀ h₀ i₀, (w.heaps h₀).get? i₀ = some m → h₀ = h ∧ i₀ = n - 1 := by
    intro h₀ i₀ hc
    have h1 := hbi.1 h₀ i₀ m hc
    rw [hbm, Book.eq_mk_iff] at h1
    rcases h1 with ⟨hx, hy⟩
    have hx2 : (some h : Option Nat) = some h₀ := hx
    have hy2 : ((n - 1 : Nat) : Int) = (i₀ : Int) := hy
    injection hx2 with hx'
    exact ⟨hx'.symm, by omega⟩
  have hbk : ∀ id, w'.book id = if id = m then detachedBook else w.book id := by
    intro id
    rw [hbk']
    by_cases hid : id = m
    · rw [if_pos hid, hid]
      exact Function.update_same _ _ _
    · rw [if_neg hid]
      exact Function.update_noteq hid _ _
  refine ⟨?_, ?_, ?_⟩
  · intro h' i' id' hid'
    rw [hbk id']
    by_cases hh : h' = h
    · subst hh
      rw [hl'] at hid'
      have hi'lt : i' < n - 1 := by
        have h2 := ((List.get?_eq_some).1 hid').1
        rw [List.length_take] at h2
        omega
      rw [List.get?_take hi'lt] at hid'
      have hne : id' ≠ m := fun hc => by
        have := (huniq h' i' (hc ▸ hid')).2
        omega
      rw [if_neg hne]
      exact hbi.1 h' i' id' hid'
    · rw [hne' h' hh] at hid'
      have hne : id' ≠ m := fun hc => hh (huniq h' i' (hc ▸ hid')).1
      rw [if_neg hne]
      exact hbi.1 h' i' id' hid'
  · intro id h₀ hmem
    rw [hbk id] at hmem ⊢
    by_cases hid : id = m
    · rw [if_pos hid] at hmem
      cases hmem
    · rw [if_neg hid] at hmem ⊢
      rcases hbi.2.1 id h₀ hmem with ⟨i₀, hi₀, hidx⟩
      refine ⟨i₀, ?_, hidx⟩
      by_cases hh : h₀ = h
      · subst hh
        have hi₀n : i₀ ≠ n - 1 := by
          intro hc
          rw [hc] at hi₀
          rw [hi₀] at hm
          injection hm with hm'
          exact hid hm'
        have hi₀lt : i₀ < n := ((List.get?_eq_some).1 hi₀).1
        rw [hl', List.get?_take (by omega)]
        exact hi₀
      · rw [hne' h₀ hh]
        exact hi₀
  · intro id hmem
    rw [hbk id] at hmem ⊢
    by_cases hid : id = m
    · rw [if_pos hid]
      rfl
    · rw [if_neg hid] at hmem ⊢
      exact hbi.2.2 id hmem

theorem mhDrain_bookInv {h : Nat} {w : World} (hbi : BookInv w) :
    BookInv (mhDrain h w).2 := by
  rcases mhDrain_spec (h := h) (w := w) with ⟨_, hl, hlne, hbin, hbout⟩
  refine ⟨?_, ?_, ?_⟩
  · intro h' i' id' hid'
    by_cases hh : h' = h
    · rw [hh, hl] at hid'
      cases hid'
    · rw [hlne h' hh] at hid'
      have h1 := hbi.1 h' i' id' hid'
      have hnotin : id' ∉ w.heaps h := by
        intro hc
        rcases List.mem_iff_get?.1 hc with ⟨k, hk⟩
        have h2 := hbi.1 h k id' hk
        rw [h1] at h2
        have h3 : (some h' : Option Nat) = some h := congrArg Book.messageHeap h2
        injection h3 with h4
        exact hh h4
      rw [hbout id' hnotin]
      exact h1
  · intro id h₀ hmem
    by_cases hin : id ∈ w.heaps h
    · rw [hbin id hin] at hmem
      cases hmem
    · rw [hbout id hin] at hmem ⊢
      rcases hbi.2.1 id h₀ hmem with ⟨i₀, hi₀, hidx⟩
      refine ⟨i₀, ?_, hidx⟩
      by_cases hh : h₀ = h
      · subst hh
        exact absurd (List.mem_iff_get?.2 ⟨i₀, hi₀⟩) hin
      · rw [hlne h₀ hh]
        exact hi₀
  · intro id hmem
    by_cases hin : id ∈ w.heaps h
    · rw [hbin id hin]
      rfl
    · rw [hbout id hin] at hmem ⊢
      exact hbi.2.2 id hmem

theorem pushMessage_bookInv {h m : Nat} {w w' : World}
    (hbi : BookInv w) (hdet : w.book m = detachedBook)
    (heq : pushMessage msgs h m w = some w') : BookInv w' := by
  simp only [pushMessage, heapUp] at heq
  exact heapUpFuel_bookInv msgs (interfacePush_bookInv hbi hdet) heq

theorem popMessage_bookInv {h : Nat} {w w' : World} {m : Nat}
    (hbi : BookInv w) (heq : popMessage msgs h w = some (m, w')) : BookInv w' := by
  simp only [popMessage, Bind.bind, Option.bind_eq_some] at heq
  rcases heq with ⟨w1, hsw, ⟨w2, i2⟩, hdn, hpop⟩
  dsimp only at hsw hdn hpop
  exact interfacePop_bookInv
    (heapDownFuel_bookInv msgs (swapOp_bookInv hbi hsw) hdn) hpop

theorem heapRemove_bookInv {h i : Nat} {w w' : World} {m : Nat}
    (hbi : BookInv w) (heq : heapRemove msgs h i w = some (m, w')) : BookInv w' := by
  simp only [heapRemove] at heq
  split at heq
  · exact interfacePop_bookInv hbi heq
  · split at heq
    · cases heq
    next w1 hsw =>
    split at heq
    · cases heq
    next w2 i2 hdn =>
    split at heq
    · cases heq
    next w3 hw3 =>
    rename (interfacePop h w3 = some (m, w')) => hpop
    have hbi2 : BookInv w2 := heapDownFuel_bookInv msgs (swapOp_bookInv hbi hsw) hdn
    have hbi3 : BookInv w3 := by
      split at hw3
      · cases hw3; exact hbi2
      · exact heapUpFuel_bookInv msgs hbi2 hw3
    exact interfacePop_bookInv hbi3 hpop

theorem mhRemove_bookInv {h m : Nat} {w w' : World} {r : Bool}
    (hbi : BookInv w) (heq : mhRemove msgs h m w = some (r, w')) : BookInv w' := by
  simp only [mhRemove] at heq
  split at heq
  · rw [Option.map_eq_some'] at heq
    rcases heq with ⟨⟨m0, w0⟩, hrem, heq2⟩
    injection heq2 with hr hw
    subst hw
    exact heapRemove_bookInv msgs hbi hrem
  · injection heq with hpair
    injection hpair with hr hw
    subst hw
    exact hbi

theorem initWorld_bookInv : BookInv initWorld := by
  refine ⟨?_, ?_, ?_⟩
  · intro h i id hid
    simp [initWorld] at hid
  · intro id h₀ hmem
    simp [initWorld, detachedBook] at hmem
  · intro id _
    rfl

theorem reach_bookInv {w : World} (hr : Reach msgs w) : BookInv w := by
  induction hr with
  | init => exact initWorld_bookInv
  | push _ hdet heq ih => exact pushMessage_bookInv msgs ih hdet heq
  | pop _ heq ih => exact popMessage_bookInv msgs ih heq
  | removeStep _ heq ih => exact mhRemove_bookInv msgs ih heq
  | drainStep h _ ih => exact mhDrain_bookInv ih

end BookInvOpsThms

/-- C1 (amended): for every reachable heap state, pop() returns a minimal
entry, so successive pop() results are non-decreasing in the pair
(releaseAt, priority) provided only pops and removes (no pushes) happen
between the two pops; in particular, among entries with equal releaseAt the
entry with the smaller priority is popped first.  (The claim's unrestricted
interleaving is refuted by `timequeue_C1_counterexample`: a push of an
earlier releaseAt between two pops makes the second pop smaller.) -/
theorem timequeue_C1_pop_order {msgs : Nat → Message} {w w1 w2 w3 : World}
    {h m1 m2 : Nat}
    (hr : Reach msgs w)
    (hp1 : popMessage msgs h w = some (m1, w1))
    (hmid : PopRemoveOnly msgs w1 w2)
    (hp2 : popMessage msgs h w2 = some (m2, w3)) :
    (msgs m1).At < (msgs m2).At ∨
      ((msgs m1).At = (msgs m2).At ∧ (msgs m1).Priority ≤ (msgs m2).Priority) := by
  have ho := reach_heapsOrdered msgs hr
  have hmin := popMessage_min msgs ho hp1
  have ho1 := popMessage_heapsOrdered msgs ho hp1
  rcases popRemoveOnly_subset hmid ho1 with ⟨ho2, hsub⟩
  have hm2w2 : m2 ∈ w2.heaps h := (popMessage_spec msgs (ho2 h) hp2).2.2.2.2.2.2
  have hm2w1 : m2 ∈ w1.heaps h := hsub h m2 hm2w2
  have hm2w : m2 ∈ w.heaps h := (popMessage_spec msgs (ho h) hp1).2.2.2.2.1 m2 hm2w1
  have hless := hmin m2 hm2w
  simp only [Message.less] at hless
  split at hless
  · next hAt =>
    right
    refine ⟨hAt.symm, ?_⟩
    simp at hless
    omega
  · next hAt =>
    left
    simp at hless
    omega

/-- C1 counterexample: the claim as stated quantifies over every
interleaving of pushes with pops, but pushing an entry with an earlier
releaseAt between two pops makes the successive pop() results decrease: on
the trace push 0 (releaseAt 10), pop, push 1 (releaseAt 5), pop the two
pops return releaseAt 10 and then releaseAt 5, and 5 < 10. -/
theorem timequeue_C1_counterexample :
    ((runHeapOps msgsC1 0 [HeapOp.push 0, HeapOp.pop, HeapOp.push 1, HeapOp.pop]
        initWorld).map (fun p => p.2.map (fun i => (msgsC1 i).At)) =
      some [10, 5]) ∧ (5 : Int) < 10 := by
  constructor
  · rfl
  · decide

/-- C1 witness: a concrete application of `timequeue_C1_pop_order`: push ids
0 and 1 (releaseAt 0 and 1), then pop twice with nothing in between; the
first pop (releaseAt 0) is not after the second (releaseAt 1). -/
theorem timequeue_C1_witness :
    (msgsW 0).At < (msgsW 1).At ∨
      ((msgsW 0).At = (msgsW 1).At ∧ (msgsW 0).Priority ≤ (msgsW 1).Priority) :=
  timequeue_C1_pop_order
    (Reach.push (Reach.push Reach.init (by decide)
        (by rfl : pushMessage msgsW 0 0 initWorld = some wWitness1))
      (by decide)
      (by rfl : pushMessage msgsW 0 1 wWitness1 = some wWitness2))
    (by rfl : popMessage msgsW 0 wWitness2 = some (0, wWitness3))
    (PopRemoveOnly.refl wWitness3)
    (by rfl : popMessage msgsW 0 wWitness3 = some (1, ((popMessage msgsW 0 wWitness3).getD (0, initWorld)).2))

/-- C4: after any sequence of push/pop/remove/drain heap operations, every
entry stored in a heap has its container reference set to that heap and its
position field equal to the array index where the heap stores it; every
entry not stored in any heap is booked as detached (no container, position
-1); and the position is the detached sentinel iff the container reference
is none. -/
theorem timequeue_C4_index_bookkeeping {msgs : Nat → Message} {w : World}
    (hr : Reach msgs w) :
    (∀ h i id, (w.heaps h).get? i = some id →
      (w.book id).messageHeap = some h ∧ (w.book id).index = (i : Int)) ∧
    (∀ id, (∀ h, id ∉ w.heaps h) → w.book id = detachedBook) ∧
    (∀ id, ((w.book id).index = indexNotInHeap ↔ (w.book id).messageHeap = none)) := by
  have hbi := reach_bookInv msgs hr
  refine ⟨?_, ?_, ?_⟩
  · intro h i id hid
    rw [hbi.1 h i id hid]
    exact ⟨rfl, rfl⟩
  · intro id hnot
    rcases hmem : (w.book id).messageHeap with _ | h₀
    · have hidx := hbi.2.2 id hmem
      show w.book id = { messageHeap := none, index := indexNotInHeap }
      rw [Book.eq_mk_iff]
      exact ⟨hmem, hidx⟩
    · rcases hbi.2.1 id h₀ hmem with ⟨i₀, hi₀, _⟩
      exact absurd (List.mem_iff_get?.2 ⟨i₀, hi₀⟩) (hnot h₀)
  · intro id
    constructor
    · intro hidx
      rcases hmem : (w.book id).messageHeap with _ | h₀
      · rfl
      · rcases hbi.2.1 id h₀ hmem with ⟨i₀, _, hidx₀⟩
        rw [hidx] at hidx₀
        have hcontra : (-1 : Int) = (i₀ : Int) := hidx₀
        omega
    · intro hmem
      exact hbi.2.2 id hmem

/-- C4 witness: the bookkeeping statement applied to the concrete reachable
world holding ids 0 and 1 on heap 0. -/
theorem timequeue_C4_witness :
    (∀ h i id, (wWitness2.heaps h).get? i = some id →
      (wWitness2.book id).messageHeap = some h ∧ (wWitness2.book id).index = (i : Int)) ∧
    (∀ id, (∀ h, id ∉ wWitness2.heaps h) → wWitness2.book id = detachedBook) ∧
    (∀ id, ((wWitness2.book id).index = indexNotInHeap ↔
      (wWitness2.book id).messageHeap = none)) :=
  timequeue_C4_index_bookkeeping
    (Reach.push (Reach.push Reach.init (by decide)
        (by rfl : pushMessage msgsW 0 0 initWorld = some wWitness1))
      (by decide)
      (by rfl : pushMessage msgsW 0 1 wWitness1 = some wWitness2))

/-- C5 (amended): peek() on an empty heap returns nil (a graceful nothing
value), but pop() on an empty heap is not guarded: `heap.Pop` immediately
calls `Swap` with an out-of-range index on the empty backing array and the
Go runtime panics.  `popMessage`'s `none` models that panic — the function
has no branch returning a nil message. -/
theorem timequeue_C5_empty_reads (msgs : Nat → Message) (w : World) (h : Nat)
    (hempty : w.heaps h = []) :
    peek h w = none ∧ popMessage msgs h w = none := by
  constructor
  · simp [peek, hempty]
  · simp [popMessage, swapOp, hempty, Bind.bind]

/-- C5 counterexample: pop() on the empty heap of the initial world does not
produce a nil-message result; it panics (the `none` of `popMessage` models
the Go index-out-of-range panic inside `heap.Pop`'s `Swap(0, -1)`), refuting
the claim that pop() on an empty heap returns a "nothing" value without
being fatal. -/
theorem timequeue_C5_counterexample :
    popMessage msgsW 0 initWorld = none ∧ peek 0 initWorld = none := by
  constructor <;> rfl

/-- C5 witness: the amended statement applied to the initial world's empty
heap. -/
theorem timequeue_C5_witness :
    peek 0 initWorld = none ∧ popMessage msgsW 0 initWorld = none :=
  timequeue_C5_empty_reads msgsW initWorld 0 rfl

/-- C6: remove() of an entry whose container reference is not this heap
(never pushed, already popped or removed, or belonging to a different heap)
returns false and leaves the entire world — in particular this heap's size
and element order — unchanged; and a completed remove() returns true exactly
when the entry's container reference identifies this heap. -/
theorem timequeue_C6_remove_membership (msgs : Nat → Message) (w : World)
    (h m : Nat) :
    ((w.book m).messageHeap ≠ some h → mhRemove msgs h m w = some (false, w)) ∧
    (∀ r w', mhRemove msgs h m w = some (r, w') →
      (r = true ↔ (w.book m).messageHeap = some h)) := by
  constructor
  · intro hne
    exact mhRemove_false msgs hne
  · intro r w' heq
    simp only [mhRemove] at heq
    split at heq
    · next hguard =>
      rw [Option.map_eq_some'] at heq
      rcases heq with ⟨⟨m0, w0⟩, _, heq2⟩
      injection heq2 with hr _
      exact ⟨fun _ => hguard, fun _ => hr.symm⟩
    · next hguard =>
      injection heq with hpair
      injection hpair with hr _
      constructor
      · intro hc
        rw [← hr] at hc
        cases hc
      · intro hc
        exact absurd hc hguard

/-- C6 witness: removing id 5 (never pushed) from heap 0 of the concrete
two-element world returns false and changes nothing, and a completed remove
of that id cannot return true. -/
theorem timequeue_C6_witness :
    mhRemove msgsW 0 5 wWitness2 = some (false, wWitness2) ∧
    (∀ r w', mhRemove msgsW 0 5 wWitness2 = some (r, w') →
      (r = true ↔ (wWitness2.book 5).messageHeap = some 0)) :=
  ⟨(timequeue_C6_remove_membership msgsW wWitness2 0 5).1 (by decide),
   (timequeue_C6_remove_membership msgsW wWitness2 0 5).2⟩

/-! ## Book frame lemmas: heap operations do not touch the bookkeeping of
messages outside the heap (other than the pushed message itself) -/

section BookFrameThms

variable (msgs : Nat → Message)

theorem swapOp_book_frame {h i j : Nat} {w w' : World}
    (heq : swapOp h i j w = some w') :
    ∀ id, id ∉ w.heaps h → w'.book id = w.book id := by
  rcases swapOp_some heq with ⟨a, b, ha, hb, rfl⟩
  intro id hid
  have hna : id ≠ a := fun hc => hid (hc ▸ List.mem_iff_get?.2 ⟨i, ha⟩)
  have hnb : id ≠ b := fun hc => hid (hc ▸ List.mem_iff_get?.2 ⟨j, hb⟩)
  dsimp only
  rw [Function.update_noteq hna, Function.update_noteq hnb]

theorem heapUpFuel_book_frame {h : Nat} {fuel : Nat} : ∀ {j : Nat} {w w' : World},
    heapUpFuel msgs fuel h j w = some w' →
    ∀ id, id ∉ w.heaps h → w'.book id = w.book id := by
  induction fuel with
  | zero => intro j w w' heq; cases heq
  | succ fuel ih =>
    intro j w w' heq id hid
    rw [heapUpFuel] at heq
    split at heq
    · cases heq; rfl
    · split at heq
      · cases heq
      · cases heq; rfl
      · split at heq
        · cases heq
        · next w1 hsw =>
          have hid1 : id ∉ w1.heaps h := fun hc => hid ((swapOp_mem hsw id).1 hc)
          rw [ih heq id hid1, swapOp_book_frame hsw id hid]

theorem heapDownFuel_book_frame {h n : Nat} {fuel : Nat} :
    ∀ {i : Nat} {w w' : World} {i' : Nat},
    heapDownFuel msgs fuel h n i w = some (w', i') →
    ∀ id, id ∉ w.heaps h → w'.book id = w.book id := by
  induction fuel with
  | zero => intro i w w' i' heq; cases heq
  | succ fuel ih =>
    intro i w w' i' heq id hid
    rw [heapDownFuel] at heq
    split at heq
    · cases heq; rfl
    · split at heq
      · cases heq
      · split at heq
        · cases heq
        · cases heq; rfl
        · split at heq
          · cases heq
          · next w1 hsw =>
            have hid1 : id ∉ w1.heaps h := fun hc => hid ((swapOp_mem hsw id).1 hc)
            rw [ih heq id hid1, swapOp_book_frame hsw id hid]

theorem interfacePop_book_frame {h : Nat} {w w' : World} {m : Nat}
    (heq : interfacePop h w = some (m, w')) :
    ∀ id, id ∉ w.heaps h → w'.book id = w.book id := by
  rcases interfacePop_spec heq with ⟨hm, _, _, hbk'⟩
  intro id hid
  have hne : id ≠ m := fun hc => hid (hc ▸ List.mem_iff_get?.2 ⟨_, hm⟩)
  rw [hbk', Function.update_noteq hne]

theorem popMessage_book_frame {h : Nat} {w w' : World} {m : Nat}
    (heq : popMessage msgs h w = some (m, w')) :
    ∀ id, id ∉ w.heaps h → w'.book id = w.book id := by
  simp only [popMessage, Bind.bind, Option.bind_eq_some] at heq
  rcases heq with ⟨w1, hsw, ⟨w2, i2⟩, hdn, hpop⟩
  dsimp only at hsw hdn hpop
  intro id hid
  have hid1 : id ∉ w1.heaps h := fun hc => hid ((swapOp_mem hsw id).1 hc)
  have hid2 : id ∉ w2.heaps h := fun hc =>
    hid1 (((heapDownFuel_sameShape msgs hdn).2.2 id).1 hc)
  rw [interfacePop_book_frame hpop id hid2, heapDownFuel_book_frame msgs hdn id hid1,
    swapOp_book_frame hsw id hid]

theorem pushMessage_book_frame {h m : Nat} {w w' : World}
    (heq : pushMessage msgs h m w = some w') :
    ∀ id, id ∉ w.heaps h → id ≠ m → w'.book id = w.book id := by
  simp only [pushMessage, heapUp] at heq
  intro id hid hne
  have hpb : (interfacePush h m w).book id = w.book id := by
    simp only [interfacePush]
    exact Function.update_noteq hne _ _
  have hpm : id ∉ (interfacePush h m w).heaps h := by
    rw [interfacePush_heaps, List.mem_append, List.mem_singleton]
    rintro (hc | hc)
    · exact hid hc
    · exact hne hc
  rw [heapUpFuel_book_frame msgs heq id hpm, hpb]

theorem heapRemove_book_frame {h i : Nat} {w w' : World} {m : Nat}
    (heq : heapRemove msgs h i w = some (m, w')) :
    ∀ id, id ∉ w.heaps h → w'.book id = w.book id := by
  simp only [heapRemove] at heq
  split at heq
  · exact interfacePop_book_frame heq
  · split at heq
    · cases heq
    next w1 hsw =>
    split at heq
    · cases heq
    next w2 i2 hdn =>
    split at heq
    · cases heq
    next w3 hw3 =>
    rename (interfacePop h w3 = some (m, w')) => hpop
    intro id hid
    have hid1 : id ∉ w1.heaps h := fun hc => hid ((swapOp_mem hsw id).1 hc)
    have hid2 : id ∉ w2.heaps h := fun hc =>
      hid1 (((heapDownFuel_sameShape msgs hdn).2.2 id).1 hc)
    have hw3frame : w3.book id = w2.book id ∧ (id ∈ w3.heaps h ↔ id ∈ w2.heaps h) := by
      split at hw3
      · cases hw3; exact ⟨rfl, Iff.rfl⟩
      · exact ⟨heapUpFuel_book_frame msgs hw3 id hid2,
          (heapUpFuel_sameShape msgs hw3).2.2 id⟩
    have hid3 : id ∉ w3.heaps h := fun hc => hid2 (hw3frame.2.1 hc)
    rw [interfacePop_book_frame hpop id hid3, hw3frame.1,
      heapDownFuel_book_frame msgs hdn id hid1, swapOp_book_frame hsw id hid]

theorem mhRemove_book_frame {h m : Nat} {w w' : World} {r : Bool}
    (heq : mhRemove msgs h m w = some (r, w')) :
    ∀ id, id ∉ w.heaps h → w'.book id = w.book id := by
  simp only [mhRemove] at heq
  split at heq
  · rw [Option.map_eq_some'] at heq
    rcases heq with ⟨⟨m0, w0⟩, hrem, heq2⟩
    injection heq2 with hr hw
    subst hw
    exact heapRemove_book_frame msgs hrem
  · injection heq with hpair
    injection hpair with hr hw
    subst hw
    intro id _
    rfl

end BookFrameThms

section TQLemmasThms

variable (msgs : Nat → Message)

theorem stopTimer_some {t t' : TimerState} (heq : stopTimer t = some t') :
    t' = TimerState.idle := by
  cases t
  · injection heq with h
    exact h.symm
  · injection heq with h
    exact h.symm
  · cases heq

theorem stopTimer_ne_idle {t : TimerState} (hne : t ≠ TimerState.idle) :
    stopTimer t = some TimerState.idle := by
  cases t
  · rfl
  · rfl
  · exact absurd rfl hne

theorem peek_none_iff {h : Nat} {w : World} :
    peek h w = none ↔ w.heaps h = [] := by
  constructor
  · intro hp
    simp only [peek] at hp
    split at hp
    · next hpos =>
      rcases hl : w.heaps h with _ | ⟨x, xs⟩
      · rfl
      · rw [hl] at hp
        cases hp
    · next hpos =>
      exact List.length_eq_zero.1 (by omega)
  · intro hl
    simp [peek, hl]

theorem not_mem_heap_of_detached {w : World} (hbi : BookInv w) {m : Nat}
    (hdet : w.book m = detachedBook) (h : Nat) : m ∉ w.heaps h := by
  intro hc
  rcases List.mem_iff_get?.1 hc with ⟨k, hk⟩
  exact not_mem_of_detached hbi hdet h k hk

theorem pushMessage_into_empty {m : Nat} {w w' : World}
    (hempty : w.heaps tqHeapId = [])
    (heq : pushMessage msgs tqHeapId m w = some w') : isHead m w' = true := by
  simp only [pushMessage, heapUp] at heq
  have hl : (interfacePush tqHeapId m w).heaps tqHeapId = [m] := by
    rw [interfacePush_heaps, hempty]
    rfl
  rw [hl] at heq
  simp only [List.length_singleton, Nat.sub_self, Nat.zero_add] at heq
  rw [heapUpFuel] at heq
  simp only [Nat.zero_sub, Nat.zero_div, if_pos rfl] at heq
  injection heq with heq'
  rw [← heq']
  simp [isHead, interfacePush, hempty, Function.update_same, detachedBook]

theorem pushLoop_spec : ∀ {ms : List Nat} {w : World} {nh : Option Nat}
    {w' : World} {nh' : Option Nat},
    pushLoop msgs ms w nh = some (w', nh') →
    BookInv w → HeapsOrdered msgs w →
    (∀ m ∈ ms, w.book m = detachedBook) → ms.Nodup →
    BookInv w' ∧ HeapsOrdered msgs w' ∧
    (w'.heaps tqHeapId).length = (w.heaps tqHeapId).length + ms.length ∧
    (∀ h', h' ≠ tqHeapId → w'.heaps h' = w.heaps h') ∧
    (∀ id, id ∉ w.heaps tqHeapId → id ∉ ms → w'.book id = w.book id) ∧
    (nh ≠ none → nh' ≠ none) ∧
    (w.heaps tqHeapId = [] → ms ≠ [] → nh' ≠ none) := by
  intro ms
  induction ms with
  | nil =>
    intro w nh w' nh' heq hbi ho _ _
    simp only [pushLoop] at heq
    injection heq with heq'
    injection heq' with h1 h2
    subst h1
    subst h2
    exact ⟨hbi, ho, by simp, fun _ _ => rfl, fun _ _ _ => rfl,
      fun hx => hx, fun _ hc => absurd rfl hc⟩
  | cons m rest ih =>
    intro w nh w' nh' heq hbi ho hdet hnd
    simp only [pushLoop] at heq
    split at heq
    · cases heq
    · next w1 hpush =>
      have hdm : w.book m = detachedBook := hdet m (List.mem_cons_self m rest)
      have hmnot : m ∉ w.heaps tqHeapId := not_mem_heap_of_detached hbi hdm tqHeapId
      have hbi1 : BookInv w1 := pushMessage_bookInv msgs hbi hdm hpush
      have ho1 : HeapsOrdered msgs w1 := pushMessage_heapsOrdered msgs ho hpush
      rcases pushMessage_spec msgs (ho tqHeapId) hpush with ⟨_, hlen1, hne1, hmem1⟩
      have hnodup := List.nodup_cons.1 hnd
      have hdet1 : ∀ m' ∈ rest, w1.book m' = detachedBook := by
        intro m' hm'
        have hm'det : w.book m' = detachedBook := hdet m' (List.mem_cons_of_mem m hm')
        have hm'ne : m' ≠ m := fun hc => hnodup.1 (hc ▸ hm')
        rw [pushMessage_book_frame msgs hpush m'
          (not_mem_heap_of_detached hbi hm'det tqHeapId) hm'ne]
        exact hm'det
      rcases ih heq hbi1 ho1 hdet1 hnodup.2 with ⟨hA, hB, hC, hD, hE, hF, hG⟩
      refine ⟨hA, hB, ?_, ?_, ?_, ?_, ?_⟩
      · rw [hC, hlen1, List.length_cons]
        omega
      · intro h' hne
        rw [hD h' hne, hne1 h' hne]
      · intro id hid hidms
        have hidm : id ≠ m := fun hc => hidms (hc ▸ List.mem_cons_self m rest)
        have hidrest : id ∉ rest := fun hc => hidms (List.mem_cons_of_mem m hc)
        have hid1 : id ∉ w1.heaps tqHeapId := by
          rw [hmem1 id]
          rintro (hc | hc)
          · exact hid hc
          · exact hidm hc
        rw [hE id hid1 hidrest, pushMessage_book_frame msgs hpush id hid hidm]
      · intro hnh
        apply hF
        split
        · intro hc; cases hc
        · exact hnh
      · intro hempty _
        have hhead : isHead m w1 = true := pushMessage_into_empty msgs hempty hpush
        apply hF
        rw [if_pos hhead]
        intro hc
        cases hc

end TQLemmasThms

section TQInvPresThms

variable (msgs : Nat → Message)

theorem maybeReset_idle_iff {w' : World} :
    (maybeResetTimerToHead msgs w' TimerState.idle = TimerState.idle) ↔
      w'.heaps tqHeapId = [] := by
  simp only [maybeResetTimerToHead]
  split
  · next m hp =>
    constructor
    · intro hc
      cases hc
    · intro hc
      rw [peek_none_iff.2 hc] at hp
      cases hp
  · next hp =>
    rw [← peek_none_iff]
    simp [hp]

theorem mhRemove_true_guard {h m : Nat} {w w' : World}
    (heq : mhRemove msgs h m w = some (true, w')) :
    (w.book m).messageHeap = some h := by
  simp only [mhRemove] at heq
  split at heq
  · next hg => exact hg
  · injection heq with hpair
    injection hpair with hr _
    cases hr

theorem tqPushAll_inv {s s' : TQ} {ms : List Nat} {p r c : Nat}
    (hinv : TQInv msgs s p r c)
    (hdet : ∀ m ∈ ms, s.world.book m = detachedBook) (hnd : ms.Nodup)
    (hout : ∀ m ∈ ms, m ∉ s.out)
    (heq : tqPushAll msgs ms s = some s') : TQInv msgs s' (p + ms.length) r c := by
  obtain ⟨hOrd, hBook, hTimer, hOut, hCount⟩ := hinv
  simp only [tqPushAll] at heq
  split at heq
  · cases heq
  · next w newHead hloop =>
    rcases pushLoop_spec msgs hloop hBook hOrd hdet hnd with
      ⟨hA, hB, hC, hD, hE, hF, hG⟩
    have houtbook : ∀ m' ∈ s.out, w.book m' = detachedBook := by
      intro m' hm'
      have hdet' := hOut m' hm'
      have hnin : m' ∉ s.world.heaps tqHeapId :=
        not_mem_heap_of_detached hBook hdet' tqHeapId
      have hnms : m' ∉ ms := fun hc => hout m' hc hm'
      rw [hE m' hnin hnms]
      exact hdet'
    split at heq
    · -- no pushed message became head: the timer is untouched
      cases heq
      refine ⟨hB, hA, ?_, houtbook, by dsimp only; omega⟩
      dsimp only
      rcases hms : ms with _ | ⟨m0, rest⟩
      · have hw : w = s.world := by
          rw [hms] at hloop
          simp only [pushLoop] at hloop
          injection hloop with hpair
          injection hpair with h1 _
          exact h1.symm
        rw [hw]
        exact hTimer
      · rw [hms] at hG hC
        constructor
        · intro hid
          exact absurd rfl (hG (hTimer.1 hid) (List.cons_ne_nil m0 rest))
        · intro hc
          exfalso
          have h0 : (w.heaps tqHeapId).length = 0 := by rw [hc]; rfl
          rw [List.length_cons] at hC
          omega
    · -- a pushed message became head
      next nh =>
      have hmsne : ms ≠ [] := by
        intro hcms
        rw [hcms] at hloop
        simp only [pushLoop] at hloop
        injection hloop with hpair
        injection hpair with _ h2
        cases h2
      have hmslen : 0 < ms.length := List.length_pos.2 hmsne
      split at heq
      · next hlen1 =>
        cases heq
        refine ⟨hB, hA, ?_, houtbook, by dsimp only; omega⟩
        dsimp only
        constructor
        · intro hc
          simp [resetTimerTo] at hc
        · intro hc
          have h0 : (w.heaps tqHeapId).length = 0 := by rw [hc]; rfl
          omega
      · next hlen1 =>
        split at heq
        · cases heq
        · next t1 hstop =>
          cases heq
          refine ⟨hB, hA, ?_, houtbook, by dsimp only; omega⟩
          dsimp only
          constructor
          · intro hc
            simp [resetTimerTo] at hc
          · intro hc
            have h0 : (w.heaps tqHeapId).length = 0 := by rw [hc]; rfl
            omega

theorem tqRemove_inv {s s' : TQ} {m : Nat} {ok : Bool} {p r c : Nat}
    (hinv : TQInv msgs s p r c)
    (heq : tqRemove msgs (some m) s = some (ok, s')) :
    TQInv msgs s' p (r + (if ok then 1 else 0)) c := by
  obtain ⟨hOrd, hBook, hTimer, hOut, hCount⟩ := hinv
  simp only [tqRemove] at heq
  split at heq
  · cases heq
  · next ok0 w' hrem =>
    have hordw' : HeapsOrdered msgs w' := mhRemove_heapsOrdered msgs hOrd hrem
    have hbkw' : BookInv w' := mhRemove_bookInv msgs hBook hrem
    have houtbook : ∀ m' ∈ s.out, w'.book m' = detachedBook := by
      intro m' hm'
      have hdet' := hOut m' hm'
      rw [mhRemove_book_frame msgs hrem m'
        (not_mem_heap_of_detached hBook hdet' tqHeapId)]
      exact hdet'
    rcases mhRemove_spec msgs (hOrd tqHeapId) hrem with ⟨hfalse, htrue⟩
    split at heq
    · next hcond =>
      rw [Bool.and_eq_true] at hcond
      rcases hcond with ⟨hok0, hih⟩
      subst hok0
      rcases htrue rfl with ⟨_, hlen, _, _⟩
      split at heq
      · cases heq
      · next t1 hstop =>
        cases heq
        refine ⟨hordw', hbkw', ?_, houtbook, ?_⟩
        · dsimp only
          rw [stopTimer_some hstop]
          exact maybeReset_idle_iff msgs
        · dsimp only
          show (w'.heaps tqHeapId).length + s.out.length + (r + 1) + c = p
          omega
    · next hcond =>
      rcases hok : ok0 with _ | _
      · rw [hok] at heq hfalse
        cases heq
        have hw' : w' = s.world := hfalse rfl
        subst hw'
        refine ⟨hOrd, hBook, hTimer, hOut, ?_⟩
        dsimp only
        rw [if_neg Bool.false_ne_true]
        omega
      · rw [hok] at heq htrue hrem hcond
        cases heq
        rcases htrue rfl with ⟨_, hlen, _, _⟩
        have hih : isHead m s.world = false := by
          rcases hc : isHead m s.world with _ | _
          · rfl
          · exfalso
            rw [hc] at hcond
            exact hcond rfl
        have hguard := mhRemove_true_guard msgs hrem
        rcases hBook.2.1 m tqHeapId hguard with ⟨i, hi, hidx⟩
        have hipos : 1 ≤ i := by
          simp only [isHead, hguard, Option.isSome_some, Bool.true_and] at hih
          have hne0 : (s.world.book m).index ≠ 0 := by
            intro hc0
            rw [hc0] at hih
            simp at hih
          rw [hidx] at hne0
          omega
        have hilen : i < (s.world.heaps tqHeapId).length :=
          ((List.get?_eq_some).1 hi).1
        refine ⟨hordw', hbkw', ?_, houtbook, ?_⟩
        · dsimp only
          constructor
          · intro hid
            exfalso
            have hpre := hTimer.1 hid
            rw [hpre] at hi
            cases hi
          · intro hc
            exfalso
            have h0 : (w'.heaps tqHeapId).length = 0 := by rw [hc]; rfl
            omega
        · dsimp only
          show (w'.heaps tqHeapId).length + s.out.length + (r + 1) + c = p
          omega

theorem release_inv {s s' : TQ} {p r c : Nat}
    (hinv : TQInv msgs s p r c)
    (heq : releaseNextMessage msgs { s with timer := TimerState.idle } = some s') :
    TQInv msgs s' p r c := by
  obtain ⟨hOrd, hBook, hTimer, hOut, hCount⟩ := hinv
  simp only [releaseNextMessage] at heq
  split at heq
  · cases heq
  · next m w' hpop =>
    cases heq
    have hpop' : popMessage msgs tqHeapId s.world = some (m, w') := hpop
    rcases popMessage_spec msgs (hOrd tqHeapId) hpop' with
      ⟨_, _, hlen, _, _, hdetm, _⟩
    refine ⟨popMessage_heapsOrdered msgs hOrd hpop',
      popMessage_bookInv msgs hBook hpop', ?_, ?_, ?_⟩
    · dsimp only
      exact maybeReset_idle_iff msgs
    · dsimp only
      intro m' hm'
      rcases List.mem_append.1 hm' with hm2 | hm2
      · have hdet' := hOut m' hm2
        rw [popMessage_book_frame msgs hpop' m'
          (not_mem_heap_of_detached hBook hdet' tqHeapId)]
        exact hdet'
      · rw [List.mem_singleton.1 hm2]
        exact hdetm
    · dsimp only
      rw [List.length_append, List.length_singleton]
      omega

theorem reachTQ_inv {s : TQ} {p r c : Nat} (hr : ReachTQ msgs s p r c) :
    TQInv msgs s p r c := by
  induction hr with
  | init c =>
    refine ⟨initWorld_heapsOrdered msgs, initWorld_bookInv, ⟨fun _ => rfl, fun _ => rfl⟩,
      ?_, rfl⟩
    intro m hm
    cases hm
  | pushAll _ hdet hnd hout heq ih => exact tqPushAll_inv msgs ih hdet hnd hout heq
  | removeStep _ heq ih => exact tqRemove_inv msgs ih heq
  | startStep _ ih =>
    obtain ⟨h1, h2, h3, h4, h5⟩ := ih
    simp only [tqStart]
    split
    · exact ⟨h1, h2, h3, h4, h5⟩
    · exact ⟨h1, h2, h3, h4, h5⟩
  | stopStep _ ih =>
    obtain ⟨h1, h2, h3, h4, h5⟩ := ih
    simp only [tqStop]
    split
    · exact ⟨h1, h2, h3, h4, h5⟩
    · exact ⟨h1, h2, h3, h4, h5⟩
  | fire _ hta ih =>
    obtain ⟨h1, h2, h3, h4, h5⟩ := ih
    refine ⟨h1, h2, ?_, h4, h5⟩
    dsimp only
    constructor
    · intro hc
      cases hc
    · intro hc
      exfalso
      have := h3.2 hc
      rw [hta] at this
      cases this
  | release _ hstop htim hcap heq ih => exact release_inv msgs ih heq
  | @consume s1 p1 r1 c1 m rest _ hout2 ih =>
    obtain ⟨h1, h2, h3, h4, h5⟩ := ih
    refine ⟨h1, h2, h3, ?_, ?_⟩
    · intro m' hm'
      exact h4 m' (by rw [hout2]; exact List.mem_cons_of_mem _ hm')
    · dsimp only
      rw [hout2, List.length_cons] at h5
      omega

end TQInvPresThms

/-- C2: the claim's empty-heap case fails in the code.  `PushAll` tests
`tq.messageHeap.Len() == 1` only after the whole batch is pushed, so a batch
of two messages pushed into an empty queue (empty heap, idle expired-and-
drained timer) reaches the `else` branch and calls `stopTimer`, whose
`<-tq.timer.C` blocks forever: the queue deadlocks instead of simply arming
the timer for the new head. -/
theorem timequeue_C2_pushall_deadlock :
    (initTQ 1).world.heaps tqHeapId = [] ∧
    (initTQ 1).timer = TimerState.idle ∧
    (∃ w, pushLoop msgsW [0, 1] (initTQ 1).world none = some (w, some 0) ∧
      (w.heaps tqHeapId).length = 2) ∧
    tqPushAll msgsW [0, 1] (initTQ 1) = none :=
  ⟨rfl, rfl, ⟨_, rfl, rfl⟩, rfl⟩

/-- C3 (amended): `stop()` on a running queue performs only the stop
handshake: it reports `true` and marks the queue stopped, leaving the timer
(and the heap world and output buffer) completely untouched — it never calls
`stopTimer`, so an armed wake timer survives `stop()`. -/
theorem timequeue_C3_stop_no_cancel (s : TQ) (h : s.stopped = false) :
    tqStop s = (true, { s with stopped := true }) ∧
    (tqStop s).2.timer = s.timer ∧
    (tqStop s).2.world = s.world ∧
    (tqStop s).2.out = s.out := by
  have hc : ¬ s.stopped = true := by rw [h]; exact Bool.false_ne_true
  refine ⟨?_, ?_, ?_, ?_⟩ <;> simp only [tqStop, if_neg hc]

/-- C3 counterexample to the original claim: after pushing one message onto a
fresh queue the timer is armed for instant 0 and the queue is running;
`stop()` returns `true` but the armed timer is still pending afterwards —
no cancellation or draining of the wake timer happens. -/
theorem timequeue_C3_counterexample :
    tqPushAll msgsW [0] (initTQ 1) = some sW1 ∧
    sW1.stopped = false ∧
    sW1.timer = TimerState.armed 0 ∧
    (tqStop sW1).1 = true ∧
    (tqStop sW1).2.timer = TimerState.armed 0 :=
  ⟨rfl, rfl, rfl, rfl, rfl⟩

/-- C3 witness: the amended theorem applied to the concrete running state
`sW1`. -/
theorem timequeue_C3_witness :
    tqStop sW1 = (true, { sW1 with stopped := true }) ∧
    (tqStop sW1).2.timer = sW1.timer ∧
    (tqStop sW1).2.world = sW1.world ∧
    (tqStop sW1).2.out = sW1.out :=
  timequeue_C3_stop_no_cancel sW1 rfl

/-- C7: drain completeness.  From any state reachable by `N` pushes with no
successful removals and no consumed deliveries, `drain()` returns
`some`: exactly `N` messages — the heap contents followed by the buffered
output channel — every returned message is detached in the resulting world,
and afterwards the queue's heap and output buffer are both empty. -/
theorem timequeue_C7_drain_completeness (msgs : Nat → Message) {s : TQ} {N : Nat}
    (hr : ReachTQ msgs s N 0 0) :
    ∃ res s', tqDrain msgs s = some (res, s') ∧
      res.length = N ∧
      (∀ m ∈ res, s'.world.book m = detachedBook) ∧
      s'.world.heaps tqHeapId = [] ∧
      s'.out = [] := by
  obtain ⟨hOrd, hBook, hTimer, hOut, hCount⟩ := reachTQ_inv msgs hr
  have hdetres : ∀ m ∈ s.world.heaps tqHeapId ++ s.out,
      (if m ∈ s.world.heaps tqHeapId then detachedBook else s.world.book m) =
        detachedBook := by
    intro m hm
    by_cases hmh : m ∈ s.world.heaps tqHeapId
    · rw [if_pos hmh]
    · rw [if_neg hmh]
      exact hOut m ((List.mem_append.1 hm).resolve_left hmh)
  by_cases hne : 0 < (s.world.heaps tqHeapId).length
  · have hsome : stopTimer s.timer = some TimerState.idle := by
      cases ht : s.timer with
      | armed t => rfl
      | fired => rfl
      | idle =>
        exfalso
        rw [hTimer.1 ht] at hne
        exact absurd hne (by simp)
    refine ⟨s.world.heaps tqHeapId ++ s.out,
      { s with
        world := (mhDrain tqHeapId s.world).2,
        out := [],
        timer := TimerState.idle }, ?_, ?_, ?_, ?_, rfl⟩
    · simp only [tqDrain]
      rw [if_pos hne, hsome]
      rfl
    · rw [List.length_append]
      omega
    · intro m hm
      exact hdetres m hm
    · show Function.update s.world.heaps tqHeapId [] tqHeapId = []
      exact Function.update_same _ _ _
  · have hempty : s.world.heaps tqHeapId = [] := by
      rcases hl : s.world.heaps tqHeapId with _ | ⟨a, l⟩
      · rfl
      · exfalso
        rw [hl] at hne
        exact hne (by simp)
    refine ⟨s.world.heaps tqHeapId ++ s.out,
      { s with world := (mhDrain tqHeapId s.world).2, out := [] },
      ?_, ?_, ?_, ?_, rfl⟩
    · simp only [tqDrain]
      rw [if_neg hne]
      rfl
    · rw [List.length_append]
      omega
    · intro m hm
      exact hdetres m hm
    · show Function.update s.world.heaps tqHeapId [] tqHeapId = []
      exact Function.update_same _ _ _

/-- C7 witness: the drain-completeness theorem applied to the concrete trace
that pushes message 0 onto a fresh capacity-1 queue. -/
theorem timequeue_C7_witness :
    ∃ s1, tqPushAll msgsW [0] (initTQ 1) = some s1 ∧
      ∃ res s', tqDrain msgsW s1 = some (res, s') ∧
        res.length = 0 + [0].length ∧
        (∀ m ∈ res, s'.world.book m = detachedBook) ∧
        s'.world.heaps tqHeapId = [] ∧
        s'.out = [] := by
  refine ⟨sW1, rfl, ?_⟩
  exact timequeue_C7_drain_completeness msgsW
    (ReachTQ.pushAll (ReachTQ.init 1) (by intro m _; rfl) (by simp)
      (by intro m _ hc; exact absurd hc (List.not_mem_nil m)) rfl)

/-- C8: start/stop idempotence.  `start()` reports `true` exactly when the
queue was stopped and always leaves the queue running; `stop()` reports
`true` exactly when the queue was running and always leaves it stopped;
neither changes anything else, so a second consecutive `start()` (or
`stop()`) reports `false`. -/
theorem timequeue_C8_start_stop_idempotent (s : TQ) :
    (tqStart s).1 = s.stopped ∧
    (tqStart s).2 = { s with stopped := false } ∧
    (tqStop s).1 = !s.stopped ∧
    (tqStop s).2 = { s with stopped := true } ∧
    (tqStart (tqStart s).2).1 = false ∧
    (tqStop (tqStop s).2).1 = false := by
  rcases s with ⟨t, o, cap, st, w⟩
  rcases st with _ | _ <;> simp [tqStart, tqStop]

/-- C10: `remove` is only total for a non-nil argument.  A nil message
pointer panics at the very first step `m.isHead()` (modelled as `none`),
never reaching the graceful not-a-member branch; for any non-nil message
whose container reference is not this queue's heap, `remove` returns the
graceful `false` with the state unchanged. -/
theorem timequeue_C10_remove_nil_panics (msgs : Nat → Message) :
    (∀ s, tqRemove msgs none s = none) ∧
    (∀ s m, (s.world.book m).messageHeap ≠ some tqHeapId →
      tqRemove msgs (some m) s = some (false, s)) := by
  constructor
  · intro s
    rfl
  · intro s m hne
    simp only [tqRemove, mhRemove, if_neg hne, Bool.false_and]
    rw [if_neg Bool.false_ne_true]

/-- C10 witness: a nil remove on a fresh queue panics, while removing the
never-pushed message 5 gracefully reports `false`. -/
theorem timequeue_C10_witness :
    tqRemove msgsW none (initTQ 1) = none ∧
    tqRemove msgsW (some 5) (initTQ 1) = some (false, initTQ 1) :=
  ⟨(timequeue_C10_remove_nil_panics msgsW).1 (initTQ 1),
   (timequeue_C10_remove_nil_panics msgsW).2 (initTQ 1) 5 (by decide)⟩

/-! ## Claim C9: single-writer exclusivity of the pause protocol -/

theorem pInv_init : pInv pInit := by decide

theorem pInv_step : ∀ s s' : PSt, pInv s → pstep s s' → pInv s' := by decide

theorem pInv_mutEx : ∀ s : PSt, pInv s → pMutEx s := by decide

theorem reach9_pInv {s : PSt} (h : Reach9 s) : pInv s := by
  induction h with
  | init => exact pInv_init
  | step _ hstep ih => exact pInv_step _ _ ih hstep

/-- C9: in every reachable state of the pause-protocol model, the heap and
timer are touched by at most one actor: the run loop is never inside
`releaseNextMessage` while an external caller is inside its
paused-and-locked mutation window, and the two callers are never both
inside that window (the unbuffered `pauseChan` rendezvous plus `tq.lock`
serialize every heap touch). -/
theorem timequeue_C9_single_writer {s : PSt} (h : Reach9 s) : pMutEx s :=
  pInv_mutEx s (reach9_pInv h)

/-- C9 witness: the exclusivity theorem applied at the initial state and at
the reachable state where caller A has just sent its pause request. -/
theorem timequeue_C9_witness :
    pMutEx pInit ∧
    pMutEx { r := RPC.select, ca := CPC.pauseReq, cb := CPC.idle,
             owner := some Actor.callerA } :=
  ⟨timequeue_C9_single_writer Reach9.init,
   timequeue_C9_single_writer (Reach9.step Reach9.init (by decide))⟩

/-- C8 witness: the idempotence theorem applied to the fresh running queue:
`start()` then reports `false`, `stop()` reports `true`, and each wrong-state
call changes nothing. -/
theorem timequeue_C8_witness :
    (tqStart (initTQ 1)).1 = (initTQ 1).stopped ∧
    (tqStart (initTQ 1)).2 = { initTQ 1 with stopped := false } ∧
    (tqStop (initTQ 1)).1 = !(initTQ 1).stopped ∧
    (tqStop (initTQ 1)).2 = { initTQ 1 with stopped := true } ∧
    (tqStart (tqStart (initTQ 1)).2).1 = false ∧
    (tqStop (tqStop (initTQ 1)).2).1 = false :=
  timequeue_C8_start_stop_idempotent (initTQ 1)

